import Mathlib

set_option maxHeartbeats 1000000

/-!
Verification of the Othello rules engine (src/js/game.js) and the
minimax/alpha-beta move selector (src/js/ai.js) against their
natural-language specification.

Cells are naturals: 0 = empty, 1 = black, 2 = white, exactly as the
source constants.  A board is the JS array-of-arrays, a list of rows.
Board reads are embedded as `cellAt`, returning `none` where a JS read
of `board[r][c]` would yield `undefined` (negative or too-large index);
the JS `===` comparisons against a cell therefore become comparisons
with `some v`, which are false on `none` exactly as `undefined === v`
is false in JS.
-/

def EMPTY : Nat := 0
def BLACK : Nat := 1
def WHITE : Nat := 2

abbrev Board := List (List Nat)
abbrev Coord := Int × Int

/-- JS `board[r][c]`: `none` models `undefined` (index out of range). -/
def cellAt (b : Board) (r c : Int) : Option Nat :=
  if 0 ≤ r ∧ 0 ≤ c then (b[r.toNat]?).bind fun row => row[c.toNat]? else none

/-- The bound check `r >= 0 && r < 8 && c >= 0 && c < 8` from the source. -/
def inB (q : Coord) : Bool :=
  decide (0 ≤ q.1) && decide (q.1 < 8) && decide (0 ≤ q.2) && decide (q.2 < 8)

/-- The eight compass directions, in source order (game.js lines 94-98). -/
def dirs : List Coord :=
  [(-1, -1), (-1, 0), (-1, 1), (0, -1), (0, 1), (1, -1), (1, 0), (1, 1)]

/-- `player === BLACK ? WHITE : BLACK` (the opponent). -/
def other (p : Nat) : Nat := if p = BLACK then WHITE else BLACK

/-- Cells visited by the directional walk starting at `(row+dr, col+dc)`:
the k-th visited cell is `(row + (k+1)*dr, col + (k+1)*dc)`.  Eight entries
suffice: a walk from an in-range origin leaves the board within 8 steps. -/
def ray (row col dr dc : Int) : List Coord :=
  (List.range 8).map fun (k : Nat) =>
    (row + ((k : Int) + 1) * dr, col + ((k : Int) + 1) * dc)

/-- The maximal run of contiguous opponent cells along a direction: the JS
`while (r,c in bounds && board[r][c] === opponent)` loop, which tests bounds
before reading each cell. -/
def runIn (b : Board) (opp : Nat) (row col dr dc : Int) : List Coord :=
  (ray row col dr dc).takeWhile fun q => inB q && (cellAt b q.1 q.2 == some opp)

/-- Where the walk stands after `m` successful steps. -/
def stopPt (row col dr dc : Int) (m : Nat) : Coord :=
  (row + ((m : Int) + 1) * dr, col + ((m : Int) + 1) * dc)

/-- One direction of `isValidMove`: at least one opponent cell was passed and
the walk stopped on an in-bounds cell holding the mover's disc. -/
def checkDir (b : Board) (p : Nat) (row col dr dc : Int) : Bool :=
  let run := runIn b (other p) row col dr dc
  let st := stopPt row col dr dc run.length
  decide (0 < run.length) && inB st && (cellAt b st.1 st.2 == some p)

/-- game.js `isValidMove(row, col, player)`. -/
def isValidMove (b : Board) (row col : Int) (p : Nat) : Bool :=
  if cellAt b row col ≠ some EMPTY then false
  else dirs.any fun d => checkDir b p row col d.1 d.2

/-- One direction of `getFlippedDiscs`: keep the run only when terminated by
the mover's own disc in bounds. -/
def flipsDir (b : Board) (p : Nat) (row col dr dc : Int) : List Coord :=
  let run := runIn b (other p) row col dr dc
  let st := stopPt row col dr dc run.length
  if decide (0 < run.length) && inB st && (cellAt b st.1 st.2 == some p) then run else []

/-- game.js `getFlippedDiscs(row, col, player)`: union of the per-direction
runs, in direction order. -/
def getFlippedDiscs (b : Board) (row col : Int) (p : Nat) : List Coord :=
  (dirs.map fun d => flipsDir b p row col d.1 d.2).flatten

/-- JS `this.board[r][c] = v` (indices in range whenever the engine writes). -/
def setCell (b : Board) (r c : Int) (v : Nat) : Board :=
  b.set r.toNat ((b.getD r.toNat []).set c.toNat v)

/-- The flip loop of `makeMove`: write `v` at every listed cell in order. -/
def placeAll (b : Board) (ps : List Coord) (v : Nat) : Board :=
  ps.foldl (fun b2 q => setCell b2 q.1 q.2 v) b

/-- Row indices 0..7, the bounds of every `for` loop in the source. -/
def idx8 : List Int := [0, 1, 2, 3, 4, 5, 6, 7]

/-- The full-board counting loop of `getScore`, for one cell value. -/
def countCell (b : Board) (v : Nat) : Nat :=
  (idx8.map fun r => (idx8.map fun c => if cellAt b r c = some v then 1 else 0).sum).sum

/-- game.js `getScore()`: `(black, white)` disc counts by full-board scan. -/
def getScore (b : Board) : Nat × Nat := (countCell b BLACK, countCell b WHITE)

/-- game.js `findValidMoves(player)`: row-major scan keeping legal cells. -/
def findValidMoves (b : Board) (p : Nat) : List Coord :=
  (idx8.map fun r => (idx8.filter fun c => isValidMove b r c p).map fun c => (r, c)).flatten

/-- game.js `determineWinner()`: strictly more discs wins, `none` is a tie. -/
def determineWinner (b : Board) : Option Nat :=
  let sc := getScore b
  if sc.1 > sc.2 then some BLACK else if sc.2 > sc.1 then some WHITE else none

/-- The mutable fields of an `OthelloGame` object. -/
structure GameState where
  board : Board
  currentPlayer : Nat
  gameOver : Bool
  winner : Option Nat
  lastMove : Option Coord
  flippedDiscs : List Coord
  validMoves : List Coord
  moveHistory : List (Coord × Nat × List Coord)
deriving Repr, DecidableEq

/-- game.js `init()`: starting position, black to move, caches recomputed. -/
def initialState : GameState :=
  let b : Board :=
    [[0, 0, 0, 0, 0, 0, 0, 0],
     [0, 0, 0, 0, 0, 0, 0, 0],
     [0, 0, 0, 0, 0, 0, 0, 0],
     [0, 0, 0, 2, 1, 0, 0, 0],
     [0, 0, 0, 1, 2, 0, 0, 0],
     [0, 0, 0, 0, 0, 0, 0, 0],
     [0, 0, 0, 0, 0, 0, 0, 0],
     [0, 0, 0, 0, 0, 0, 0, 0]]
  { board := b
    currentPlayer := BLACK
    gameOver := false
    winner := none
    lastMove := none
    flippedDiscs := []
    validMoves := findValidMoves b BLACK
    moveHistory := [] }

/-- game.js `makeMove(row, col)`.  `none` is the JS `return false` (which
happens before any mutation, so the failing cases carry no new state);
`some s2` is `return true` with `s2` the mutated object.  Note that the
game-over branch leaves `validMoves` untouched, exactly as the source does. -/
def makeMove (s : GameState) (row col : Int) : Option GameState :=
  if s.gameOver then none
  else if ¬ isValidMove s.board row col s.currentPlayer then none
  else
    let flipped := getFlippedDiscs s.board row col s.currentPlayer
    let b2 := placeAll (setCell s.board row col s.currentPlayer) flipped s.currentPlayer
    let hist := s.moveHistory ++ [((row, col), s.currentPlayer, flipped)]
    let opp := other s.currentPlayer
    let oppMoves := findValidMoves b2 opp
    if oppMoves ≠ [] then
      some { board := b2, currentPlayer := opp, gameOver := s.gameOver,
             winner := s.winner, lastMove := some (row, col), flippedDiscs := flipped,
             validMoves := oppMoves, moveHistory := hist }
    else
      let curMoves := findValidMoves b2 s.currentPlayer
      if curMoves ≠ [] then
        some { board := b2, currentPlayer := s.currentPlayer, gameOver := s.gameOver,
               winner := s.winner, lastMove := some (row, col), flippedDiscs := flipped,
               validMoves := curMoves, moveHistory := hist }
      else
        some { board := b2, currentPlayer := s.currentPlayer, gameOver := true,
               winner := determineWinner b2, lastMove := some (row, col),
               flippedDiscs := flipped, validMoves := s.validMoves, moveHistory := hist }

/-- A sequence of `makeMove` calls, all of which must succeed. -/
def playList (s : GameState) : List Coord → Option GameState
  | [] => some s
  | q :: qs => (makeMove s q.1 q.2).bind fun s2 => playList s2 qs

/-- States reachable from the initial position by successful `makeMove` calls. -/
inductive Reachable : GameState → Prop
  | init : Reachable initialState
  | step (s : GameState) (row col : Int) (s2 : GameState) :
      Reachable s → makeMove s row col = some s2 → Reachable s2

/-- A successful move that does not end the game recomputes the cache for the
new current player. -/
lemma cache_correct_of_step (s : GameState) (row col : Int) (s2 : GameState)
    (h : makeMove s row col = some s2) (hgo : s2.gameOver = false) :
    s2.validMoves = findValidMoves s2.board s2.currentPlayer := by
  simp only [makeMove] at h
  split at h
  · simp at h
  · split at h
    · simp at h
    · split at h
      · injection h with h
        subst h
        rfl
      · split at h
        · injection h with h
          subst h
          rfl
        · injection h with h
          subst h
          simp at hgo

/-- A successful move that ends the game leaves the cache untouched. -/
lemma cache_frozen_of_end (s : GameState) (row col : Int) (s2 : GameState)
    (h : makeMove s row col = some s2) (hgo : s2.gameOver = true) :
    s2.validMoves = s.validMoves := by
  simp only [makeMove] at h
  split at h
  · simp at h
  · split at h
    · simp at h
    · rename_i hover _
      split at h
      · injection h with h
        subst h
        simp only at hgo
        exact absurd hgo (by simpa using hover)
      · split at h
        · injection h with h
          subst h
          simp only at hgo
          exact absurd hgo (by simpa using hover)
        · injection h with h
          subst h
          rfl

/-- C1 (amended): on every reachable state that is not over, the cache equals
`findValidMoves(currentPlayer)`; a move that ends the game leaves the cache
unchanged (it is not cleared). -/
theorem reachable_cache_invariant (s : GameState) (hs : Reachable s) :
    (s.gameOver = false → s.validMoves = findValidMoves s.board s.currentPlayer) ∧
    (∀ row col s2, makeMove s row col = some s2 → s2.gameOver = true →
       s2.validMoves = s.validMoves) := by
  induction hs with
  | init =>
      exact ⟨fun _ => rfl, fun row col s2 h hgo => cache_frozen_of_end _ row col s2 h hgo⟩
  | step s row col s2 _ hmk _ =>
      exact ⟨fun hgo => cache_correct_of_step s row col s2 hmk hgo,
             fun r c s3 h hgo => cache_frozen_of_end s2 r c s3 h hgo⟩

/-- Witness for `reachable_cache_invariant` at the initial state. -/
theorem reachable_cache_invariant_witness :
    (initialState.gameOver = false →
       initialState.validMoves =
         findValidMoves initialState.board initialState.currentPlayer) ∧
    (∀ row col s2, makeMove initialState row col = some s2 → s2.gameOver = true →
       s2.validMoves = initialState.validMoves) :=
  reachable_cache_invariant initialState Reachable.init

/-- The shortest game wiping out White: e6 f4 e3 f6 g5 d6 e7 f5 c5. -/
def c1Moves : List Coord :=
  [(5, 4), (3, 5), (2, 4), (5, 5), (4, 6), (5, 3), (6, 4), (4, 5), (4, 2)]

/-- The state reached by `c1Moves`: game over, Black 13 - White 0, with the
valid-move cache still holding Black's pre-move list. -/
def c1State : GameState :=
  { board := [[0, 0, 0, 0, 0, 0, 0, 0],
              [0, 0, 0, 0, 0, 0, 0, 0],
              [0, 0, 0, 0, 1, 0, 0, 0],
              [0, 0, 0, 1, 1, 1, 0, 0],
              [0, 0, 1, 1, 1, 1, 1, 0],
              [0, 0, 0, 1, 1, 1, 0, 0],
              [0, 0, 0, 0, 1, 0, 0, 0],
              [0, 0, 0, 0, 0, 0, 0, 0]],
    currentPlayer := 1,
    gameOver := true,
    winner := some 1,
    lastMove := some (4, 2),
    flippedDiscs := [(3, 3), (4, 3), (4, 4), (4, 5), (5, 3)],
    validMoves := [(2, 2), (3, 2), (3, 6), (4, 2), (5, 2), (5, 6), (6, 2)],
    moveHistory := [((5, 4), 1, [(4, 4)]),
                    ((3, 5), 2, [(3, 4)]),
                    ((2, 4), 1, [(3, 4)]),
                    ((5, 5), 2, [(4, 4)]),
                    ((4, 6), 1, [(3, 5)]),
                    ((5, 3), 2, [(4, 3), (5, 4)]),
                    ((6, 4), 1, [(5, 4), (4, 4), (5, 5)]),
                    ((4, 5), 2, [(4, 4)]),
                    ((4, 2), 1, [(3, 3), (4, 3), (4, 4), (4, 5), (5, 3)])] }

lemma reachable_playList (ms : List Coord) : ∀ (s s2 : GameState),
    Reachable s → playList s ms = some s2 → Reachable s2 := by
  induction ms with
  | nil =>
      intro s s2 hs h
      simp only [playList] at h
      injection h with h
      subst h
      exact hs
  | cons q qs ih =>
      intro s s2 hs h
      simp only [playList, Option.bind_eq_bind, Option.bind_eq_some] at h
      obtain ⟨s1, h1, h2⟩ := h
      exact ih s1 s2 (Reachable.step s q.1 q.2 s1 hs h1) h2

/-- C1 fails as stated: a reachable game-over state whose cached `validMoves`
is neither empty nor equal to `findValidMoves(currentPlayer)`. -/
theorem c1_counterexample :
    Reachable c1State ∧ c1State.gameOver = true ∧
    c1State.validMoves ≠ [] ∧
    c1State.validMoves ≠ findValidMoves c1State.board c1State.currentPlayer := by
  have h : playList initialState c1Moves = some c1State := by decide
  exact ⟨reachable_playList c1Moves initialState c1State Reachable.init h,
         rfl, by decide, by decide⟩

/-- C2: the turn-advance decision after a successful move, in source order:
opponent moves first, else forced pass, else game over with the winner having
strictly more discs (`none` = tie); and `gameOver` becomes true exactly when
both sides have no legal move on the post-flip board. -/
theorem makeMove_turn_logic (s : GameState) (row col : Int) (s2 : GameState)
    (h : makeMove s row col = some s2) :
    (findValidMoves s2.board (other s.currentPlayer) ≠ [] →
       s2.currentPlayer = other s.currentPlayer ∧ s2.gameOver = false ∧
       s2.winner = s.winner) ∧
    (findValidMoves s2.board (other s.currentPlayer) = [] →
       findValidMoves s2.board s.currentPlayer ≠ [] →
       s2.currentPlayer = s.currentPlayer ∧ s2.gameOver = false ∧
       s2.winner = s.winner) ∧
    (findValidMoves s2.board (other s.currentPlayer) = [] →
       findValidMoves s2.board s.currentPlayer = [] →
       s2.gameOver = true ∧ s2.winner = determineWinner s2.board) ∧
    (s2.gameOver = true →
       findValidMoves s2.board (other s.currentPlayer) = [] ∧
       findValidMoves s2.board s.currentPlayer = []) := by
  simp only [makeMove] at h
  split at h
  · simp at h
  · split at h
    · simp at h
    · rename_i hgo _
      rw [Bool.not_eq_true] at hgo
      split at h
      · rename_i hopp
        injection h with h
        subst h
        refine ⟨fun _ => ⟨rfl, hgo, rfl⟩, fun he _ => ?_, fun he _ => ?_, fun hg => ?_⟩
        · simp only at he
          exact absurd he hopp
        · simp only at he
          exact absurd he hopp
        · simp only at hg
          simp [hgo] at hg
      · rename_i hopp
        rw [ne_eq, not_not] at hopp
        split at h
        · rename_i hcur
          injection h with h
          subst h
          refine ⟨fun hne => ?_, fun _ _ => ⟨rfl, hgo, rfl⟩, fun _ he => ?_, fun hg => ?_⟩
          · simp only at hne
            exact absurd hopp hne
          · simp only at he
            exact absurd he hcur
          · simp only at hg
            simp [hgo] at hg
        · rename_i hcur
          rw [ne_eq, not_not] at hcur
          injection h with h
          subst h
          refine ⟨fun hne => ?_, fun _ hne => ?_, fun _ _ => ⟨rfl, ?_⟩, fun _ => ⟨?_, ?_⟩⟩
          · simp only at hne
            exact absurd hopp hne
          · simp only at hne
            exact absurd hcur hne
          · simp only
          · simp only
            exact hopp
          · simp only
            exact hcur

/-- Witness for `makeMove_turn_logic`: the spec's concrete scenario, Black
plays (2,3) from the start. -/
theorem makeMove_turn_logic_witness :
    (findValidMoves ((makeMove initialState 2 3).getD initialState).board
        (other initialState.currentPlayer) ≠ [] →
       ((makeMove initialState 2 3).getD initialState).currentPlayer =
           other initialState.currentPlayer ∧
       ((makeMove initialState 2 3).getD initialState).gameOver = false ∧
       ((makeMove initialState 2 3).getD initialState).winner = initialState.winner) ∧
    (findValidMoves ((makeMove initialState 2 3).getD initialState).board
        (other initialState.currentPlayer) = [] →
       findValidMoves ((makeMove initialState 2 3).getD initialState).board
         initialState.currentPlayer ≠ [] →
       ((makeMove initialState 2 3).getD initialState).currentPlayer =
           initialState.currentPlayer ∧
       ((makeMove initialState 2 3).getD initialState).gameOver = false ∧
       ((makeMove initialState 2 3).getD initialState).winner = initialState.winner) ∧
    (findValidMoves ((makeMove initialState 2 3).getD initialState).board
        (other initialState.currentPlayer) = [] →
       findValidMoves ((makeMove initialState 2 3).getD initialState).board
         initialState.currentPlayer = [] →
       ((makeMove initialState 2 3).getD initialState).gameOver = true ∧
       ((makeMove initialState 2 3).getD initialState).winner =
         determineWinner ((makeMove initialState 2 3).getD initialState).board) ∧
    (((makeMove initialState 2 3).getD initialState).gameOver = true →
       findValidMoves ((makeMove initialState 2 3).getD initialState).board
         (other initialState.currentPlayer) = [] ∧
       findValidMoves ((makeMove initialState 2 3).getD initialState).board
         initialState.currentPlayer = []) :=
  makeMove_turn_logic initialState 2 3 ((makeMove initialState 2 3).getD initialState)
    (by decide)

/-! ### The AI (src/js/ai.js) -/

/-- JS `-Infinity`, as a finite integer far below every evaluator value. -/
def NEG_INF : Int := -(2 ^ 60)

/-- JS `Infinity`, as a finite integer far above every evaluator value. -/
def POS_INF : Int := 2 ^ 60

/-- The fixed position-weight table from the `OthelloAI` constructor. -/
def positionWeights : List (List Int) :=
  [[100, -20, 10,  5,  5, 10, -20, 100],
   [-20, -50, -2, -2, -2, -2, -50, -20],
   [ 10,  -2,  1,  1,  1,  1,  -2,  10],
   [  5,  -2,  1,  0,  0,  1,  -2,   5],
   [  5,  -2,  1,  0,  0,  1,  -2,   5],
   [ 10,  -2,  1,  1,  1,  1,  -2,  10],
   [-20, -50, -2, -2, -2, -2, -50, -20],
   [100, -20, 10,  5,  5, 10, -20, 100]]

/-- `this.positionWeights[row][col]` (always read in range). -/
def weightAt (r c : Int) : Int := (positionWeights.getD r.toNat []).getD c.toNat 0

/-- A nested `for row / for col` accumulation over the 64 cells. -/
def sumCells (f : Int → Int → Int) : Int := (idx8.map fun r => (idx8.map (f r)).sum).sum

/-- The four corner cells, in source order. -/
def corners : List Coord := [(0, 0), (0, 7), (7, 0), (7, 7)]

/-- The four border lines of `evaluateEdges`: top, bottom, left, right.
Corner cells appear on two lines each. -/
def edges : List (List Coord) :=
  [[(0, 0), (0, 1), (0, 2), (0, 3), (0, 4), (0, 5), (0, 6), (0, 7)],
   [(7, 0), (7, 1), (7, 2), (7, 3), (7, 4), (7, 5), (7, 6), (7, 7)],
   [(0, 0), (1, 0), (2, 0), (3, 0), (4, 0), (5, 0), (6, 0), (7, 0)],
   [(0, 7), (1, 7), (2, 7), (3, 7), (4, 7), (5, 7), (6, 7), (7, 7)]]

/-- ai.js `evaluateEdges(board, aiPlayer, humanPlayer)`. -/
def evaluateEdges (b : Board) (ai human : Nat) : Int :=
  (edges.map fun e =>
    (e.map fun q =>
      if cellAt b q.1 q.2 = some ai then (2 : Int)
      else if cellAt b q.1 q.2 = some human then -2 else 0).sum).sum

/-- Term 1 of `evaluate`: disc-count difference, weighted 10 in the endgame
(total discs above 50) and 1 before. -/
def discTerm (b : Board) (ai human : Nat) : Int :=
  let sb := countCell b BLACK
  let sw := countCell b WHITE
  let discWeight : Int := if sb + sw > 50 then 10 else 1
  let aiDiscs : Int := if ai = WHITE then (sw : Int) else (sb : Int)
  let humanDiscs : Int := if ai = WHITE then (sb : Int) else (sw : Int)
  (aiDiscs - humanDiscs) * discWeight

/-- Term 2 of `evaluate`: the position-weight scan over all 64 cells. -/
def posTerm (b : Board) (ai human : Nat) : Int :=
  sumCells fun r c =>
    if cellAt b r c = some ai then weightAt r c
    else if cellAt b r c = some human then -weightAt r c else 0

/-- Term 3 of `evaluate`: mobility, five points per legal move of difference,
each side recounted by a full `findValidMoves` scan. -/
def mobTerm (b : Board) (ai human : Nat) : Int :=
  (((findValidMoves b ai).length : Int) - ((findValidMoves b human).length : Int)) * 5

/-- Term 4 of `evaluate`: corner occupancy, ±50 per corner. -/
def cornerTerm (b : Board) (ai human : Nat) : Int :=
  (corners.map fun q =>
    if cellAt b q.1 q.2 = some ai then (50 : Int)
    else if cellAt b q.1 q.2 = some human then -50 else 0).sum

/-- ai.js `evaluate(game, aiPlayer)`: terminal scores dominate, else the sum
of the five numbered terms of the source (disc differential, positional
weights, mobility, corners, edges). -/
def evaluate (s : GameState) (aiPlayer : Nat) : Int :=
  let humanPlayer := if aiPlayer = WHITE then BLACK else WHITE
  if s.gameOver then
    if s.winner = some aiPlayer then 10000
    else if s.winner = some humanPlayer then -10000
    else 0
  else
    discTerm s.board aiPlayer humanPlayer
    + posTerm s.board aiPlayer humanPlayer
    + mobTerm s.board aiPlayer humanPlayer
    + cornerTerm s.board aiPlayer humanPlayer
    + evaluateEdges s.board aiPlayer humanPlayer

/-- `gameCopy = game.clone(); gameCopy.makeMove(move.row, move.col)`: the JS
search applies a candidate to a clone and uses the clone whether or not the
call succeeded, so a failed move leaves the state as it was. -/
def applyMove (s : GameState) (m : Coord) : GameState := (makeMove s m.1 m.2).getD s

/-- The maximizing loop body of `minimax`: running best score and running
alpha, with the `beta <= alpha` cutoff after each child. -/
def abMax (f : Coord → Int → Int) (beta : Int) : List Coord → Int → Int → Int
  | [], _, best => best
  | mv :: rest, alpha, best =>
    let score := f mv alpha
    let best2 := max best score
    let alpha2 := max alpha score
    if beta ≤ alpha2 then best2 else abMax f beta rest alpha2 best2

/-- The minimizing loop body of `minimax`, dually. -/
def abMin (f : Coord → Int → Int) (alpha : Int) : List Coord → Int → Int → Int
  | [], _, best => best
  | mv :: rest, beta, best =>
    let score := f mv beta
    let best2 := min best score
    let beta2 := min beta score
    if beta2 ≤ alpha then best2 else abMin f alpha rest beta2 best2

/-- ai.js `minimax(game, depth, alpha, beta, isMaximizing, aiPlayer)`.
Depth 0 and finished games evaluate statically; an empty cached move list
(forced pass) also evaluates statically; otherwise the alpha-beta loops run
over the cached `validMoves` of the node's state. -/
def minimax : Nat → GameState → Int → Int → Bool → Nat → Int
  | 0, s, _, _, _, ai => evaluate s ai
  | d + 1, s, alpha, beta, isMax, ai =>
    if s.gameOver then evaluate s ai
    else if s.validMoves = [] then evaluate s ai
    else if isMax then
      abMax (fun mv a => minimax d (applyMove s mv) a beta false ai) beta
        s.validMoves alpha NEG_INF
    else
      abMin (fun mv b => minimax d (applyMove s mv) alpha b true ai) alpha
        s.validMoves beta POS_INF

/-- The root loop of `getMove`: keep the first move whose score strictly
beats the best so far (the root never narrows its own full window). -/
def searchLoop (f : Coord → Int) : List Coord → Coord × Int → Coord × Int
  | [], best => best
  | mv :: rest, best =>
    let score := f mv
    searchLoop f rest (if score > best.2 then (mv, score) else best)

/-- The score `getMove` assigns a root candidate: depth−1, full window,
minimizing next, perspective hard-coded to WHITE as in ai.js line 41. -/
def rootScore (s : GameState) (depth : Nat) (mv : Coord) : Int :=
  minimax (depth - 1) (applyMove s mv) NEG_INF POS_INF false WHITE

/-- ai.js `getMove(game)` (depth is the constructor parameter): none without
moves, the unique move immediately, otherwise the searched argmax. -/
def getMove (s : GameState) (depth : Nat) : Option Coord :=
  match s.validMoves with
  | [] => none
  | [m] => some m
  | m0 :: m1 :: rest =>
    some (searchLoop (rootScore s depth) (m0 :: m1 :: rest) (m0, NEG_INF)).1

/-- Modelled from the spec: the unpruned full-width minimax traversal of the
identical game tree (same candidate enumeration, same leaf evaluation, no
alpha-beta window), the reference point of the search-correctness claim. -/
def minimaxFull : Nat → GameState → Bool → Nat → Int
  | 0, s, _, ai => evaluate s ai
  | d + 1, s, isMax, ai =>
    if s.gameOver then evaluate s ai
    else if s.validMoves = [] then evaluate s ai
    else if isMax then
      (s.validMoves.map fun mv => minimaxFull d (applyMove s mv) false ai).foldl
        max NEG_INF
    else
      (s.validMoves.map fun mv => minimaxFull d (applyMove s mv) true ai).foldl
        min POS_INF

/-- Modelled from the spec: the root candidate score under the unpruned
traversal. -/
def rootScoreFull (s : GameState) (depth : Nat) (mv : Coord) : Int :=
  minimaxFull (depth - 1) (applyMove s mv) false WHITE

/-- Modelled from the spec: `getMove` driven by the unpruned traversal. -/
def getMoveFull (s : GameState) (depth : Nat) : Option Coord :=
  match s.validMoves with
  | [] => none
  | [m] => some m
  | m0 :: m1 :: rest =>
    some (searchLoop (rootScoreFull s depth) (m0 :: m1 :: rest) (m0, NEG_INF)).1

/-! ### Folded max/min helper lemmas -/

lemma le_foldl_max (l : List Int) (x : Int) : x ≤ l.foldl max x := by
  induction l generalizing x with
  | nil => exact le_refl x
  | cons y l ih => exact le_trans (le_max_left x y) (ih (max x y))

lemma foldl_max_comm (l : List Int) (x y : Int) :
    l.foldl max (max x y) = max x (l.foldl max y) := by
  induction l generalizing y with
  | nil => rfl
  | cons z l ih =>
      show l.foldl max (max (max x y) z) = max x (l.foldl max (max y z))
      rw [max_assoc, ih]

lemma mem_le_foldl_max (l : List Int) (x y : Int) (hy : y ∈ l) : y ≤ l.foldl max x := by
  induction l generalizing x with
  | nil => cases hy
  | cons z l ih =>
      rcases List.mem_cons.mp hy with h | h
      · subst h
        exact le_trans (le_max_right x y) (le_foldl_max l (max x y))
      · exact ih (max x z) h

lemma foldl_max_le (l : List Int) (K : Int) :
    ∀ x, x ≤ K → (∀ y ∈ l, y ≤ K) → l.foldl max x ≤ K := by
  induction l with
  | nil => intro x hx _; exact hx
  | cons z l ih =>
      intro x hx h
      exact ih (max x z) (max_le hx (h z (by simp)))
        (fun y hy => h y (List.mem_cons_of_mem _ hy))

lemma foldl_min_le (l : List Int) (x : Int) : l.foldl min x ≤ x := by
  induction l generalizing x with
  | nil => exact le_refl x
  | cons y l ih => exact le_trans (ih (min x y)) (min_le_left x y)

lemma foldl_min_comm (l : List Int) (x y : Int) :
    l.foldl min (min x y) = min x (l.foldl min y) := by
  induction l generalizing y with
  | nil => rfl
  | cons z l ih =>
      show l.foldl min (min (min x y) z) = min x (l.foldl min (min y z))
      rw [min_assoc, ih]

lemma foldl_min_le_mem (l : List Int) (x y : Int) (hy : y ∈ l) : l.foldl min x ≤ y := by
  induction l generalizing x with
  | nil => cases hy
  | cons z l ih =>
      rcases List.mem_cons.mp hy with h | h
      · subst h
        exact le_trans (foldl_min_le l (min x y)) (min_le_right x y)
      · exact ih (min x z) h

lemma le_foldl_min (l : List Int) (K : Int) :
    ∀ x, K ≤ x → (∀ y ∈ l, K ≤ y) → K ≤ l.foldl min x := by
  induction l with
  | nil => intro x hx _; exact hx
  | cons z l ih =>
      intro x hx h
      exact ih (min x z) (le_min hx (h z (by simp)))
        (fun y hy => h y (List.mem_cons_of_mem _ hy))

/-! ### Fail-soft correctness of the alpha-beta loops

`abMax_tri` is the loop invariant of the maximizing branch: writing `r` for
the loop result and `W` for the unpruned running maximum, a result inside
the original window is exact, a fail-low result upper-bounds the true value
and a fail-high result lower-bounds it. -/

lemma abMax_tri (V : Coord → Int) (R : Coord → Int → Int) (alphaR beta : Int)
    (hNI : NEG_INF ≤ alphaR)
    (hR : ∀ mv a, NEG_INF ≤ a → a < beta →
      (R mv a ≤ a → V mv ≤ R mv a) ∧ (beta ≤ R mv a → R mv a ≤ V mv) ∧
      (a < R mv a → R mv a < beta → R mv a = V mv)) :
    ∀ (ms : List Coord) (a m : Int), NEG_INF ≤ m → a = max alphaR m → a < beta →
      (abMax R beta ms a m ≤ alphaR → (ms.map V).foldl max m ≤ abMax R beta ms a m) ∧
      (beta ≤ abMax R beta ms a m → abMax R beta ms a m ≤ (ms.map V).foldl max m) ∧
      (alphaR < abMax R beta ms a m → abMax R beta ms a m < beta →
        abMax R beta ms a m = (ms.map V).foldl max m) := by
  intro ms
  induction ms with
  | nil =>
      intro a m _ _ _
      exact ⟨fun _ => le_refl m, fun _ => le_refl m, fun _ _ => rfl⟩
  | cons mv rest ih =>
      intro a m hm ha hab
      have haa : alphaR ≤ a := by rw [ha]; exact le_max_left _ _
      have hma : m ≤ a := by rw [ha]; exact le_max_right _ _
      obtain ⟨h1, h2, h3⟩ := hR mv a (le_trans hNI haa) hab
      simp only [abMax, List.map_cons, List.foldl_cons]
      set sc := R mv a with hscdef
      by_cases hbr : beta ≤ max a sc
      · rw [if_pos hbr]
        have hsb : beta ≤ sc := by
          rcases le_max_iff.mp hbr with h | h
          · exact absurd h (not_le.mpr hab)
          · exact h
        have hVs : sc ≤ V mv := h2 hsb
        have hms : max m sc = sc :=
          max_eq_right (le_trans hma (le_trans hab.le hsb))
        rw [hms]
        refine ⟨fun hc => absurd hc ?_, fun _ => ?_, fun _ hc => absurd hc (not_lt.mpr hsb)⟩
        · exact not_le.mpr (lt_of_le_of_lt haa (lt_of_lt_of_le hab hsb))
        · exact le_trans hVs (le_trans (le_max_right m (V mv))
            (le_foldl_max (rest.map V) (max m (V mv))))
      · rw [if_neg hbr]
        push_neg at hbr
        have hsblt : sc < beta := lt_of_le_of_lt (le_max_right a sc) hbr
        have IH := ih (max a sc) (max m sc)
          (le_trans hm (le_max_left _ _)) (by rw [ha, max_assoc]) hbr
        by_cases hsc : a < sc
        · have hV : sc = V mv := h3 hsc hsblt
          rw [hV] at IH ⊢
          exact IH
        · push_neg at hsc
          have hVle : V mv ≤ sc := h1 hsc
          have hW : (rest.map V).foldl max (max m (V mv)) =
              max (V mv) ((rest.map V).foldl max m) := by
            rw [max_comm m (V mv), foldl_max_comm]
          have hW2 : (rest.map V).foldl max (max m sc) =
              max sc ((rest.map V).foldl max m) := by
            rw [max_comm m sc, foldl_max_comm]
          obtain ⟨I1, I2, I3⟩ := IH
          rw [hW2] at I1 I2 I3
          rw [hW]
          refine ⟨fun hc => ?_, fun hc => ?_, fun hc1 hc2 => ?_⟩
          · exact le_trans (max_le_max hVle (le_refl _)) (I1 hc)
          · have h4 := I2 hc
            rcases le_total sc ((rest.map V).foldl max m) with hzs | hzs
            · rw [max_eq_right hzs] at h4
              exact le_trans h4 (le_max_right _ _)
            · rw [max_eq_left hzs] at h4
              exact absurd (le_trans hc h4) (not_le.mpr hsblt)
          · have h4 := I3 hc1 hc2
            rcases le_total sc ((rest.map V).foldl max m) with hzs | hzs
            · rw [max_eq_right hzs] at h4
              rw [h4, max_eq_right (le_trans hVle hzs)]
            · rw [max_eq_left hzs] at h4
              rw [h4] at hc1
              have hsm : sc ≤ m := by
                have hsc2 : sc ≤ max alphaR m := by rw [← ha]; exact hsc
                rcases le_max_iff.mp hsc2 with h | h
                · exact absurd h (not_le.mpr hc1)
                · exact h
              have hz : sc = (rest.map V).foldl max m :=
                le_antisymm (le_trans hsm (le_foldl_max _ _)) hzs
              rw [h4, hz, max_eq_right (hz ▸ hVle)]

/-- The minimizing-loop mirror of `abMax_tri`. -/
lemma abMin_tri (V : Coord → Int) (R : Coord → Int → Int) (betaR alpha : Int)
    (hPI : betaR ≤ POS_INF)
    (hR : ∀ mv b, b ≤ POS_INF → alpha < b →
      (R mv b ≤ alpha → V mv ≤ R mv b) ∧ (b ≤ R mv b → R mv b ≤ V mv) ∧
      (alpha < R mv b → R mv b < b → R mv b = V mv)) :
    ∀ (ms : List Coord) (b m : Int), m ≤ POS_INF → b = min betaR m → alpha < b →
      (abMin R alpha ms b m ≤ alpha → (ms.map V).foldl min m ≤ abMin R alpha ms b m) ∧
      (betaR ≤ abMin R alpha ms b m → abMin R alpha ms b m ≤ (ms.map V).foldl min m) ∧
      (alpha < abMin R alpha ms b m → abMin R alpha ms b m < betaR →
        abMin R alpha ms b m = (ms.map V).foldl min m) := by
  intro ms
  induction ms with
  | nil =>
      intro b m _ _ _
      exact ⟨fun _ => le_refl m, fun _ => le_refl m, fun _ _ => rfl⟩
  | cons mv rest ih =>
      intro b m hm hbdef hab
      have hbb : b ≤ betaR := by rw [hbdef]; exact min_le_left _ _
      have hmb : b ≤ m := by rw [hbdef]; exact min_le_right _ _
      obtain ⟨h1, h2, h3⟩ := hR mv b (le_trans hbb hPI) hab
      simp only [abMin, List.map_cons, List.foldl_cons]
      set sc := R mv b with hscdef
      by_cases hbr : min b sc ≤ alpha
      · rw [if_pos hbr]
        have hsb : sc ≤ alpha := by
          rcases min_le_iff.mp hbr with h | h
          · exact absurd h (not_le.mpr hab)
          · exact h
        have hVs : V mv ≤ sc := h1 hsb
        have hms : min m sc = sc :=
          min_eq_right (le_trans hsb (le_trans hab.le hmb))
        rw [hms]
        refine ⟨fun _ => ?_, fun hc => absurd hc ?_, fun hc _ => absurd hc (not_lt.mpr hsb)⟩
        · exact le_trans (foldl_min_le (rest.map V) (min m (V mv)))
            (le_trans (min_le_right m (V mv)) hVs)
        · exact not_le.mpr (lt_of_le_of_lt hsb (lt_of_lt_of_le hab hbb))
      · rw [if_neg hbr]
        push_neg at hbr
        have hsblt : alpha < sc := lt_of_lt_of_le hbr (min_le_right b sc)
        have IH := ih (min b sc) (min m sc)
          (le_trans (min_le_left _ _) hm) (by rw [hbdef, min_assoc]) hbr
        by_cases hsc : sc < b
        · have hV : sc = V mv := h3 hsblt hsc
          rw [hV] at IH ⊢
          exact IH
        · push_neg at hsc
          have hVle : sc ≤ V mv := h2 hsc
          have hW : (rest.map V).foldl min (min m (V mv)) =
              min (V mv) ((rest.map V).foldl min m) := by
            rw [min_comm m (V mv), foldl_min_comm]
          have hW2 : (rest.map V).foldl min (min m sc) =
              min sc ((rest.map V).foldl min m) := by
            rw [min_comm m sc, foldl_min_comm]
          obtain ⟨I1, I2, I3⟩ := IH
          rw [hW2] at I1 I2 I3
          rw [hW]
          refine ⟨fun hc => ?_, fun hc => ?_, fun hc1 hc2 => ?_⟩
          · have h4 := I1 hc
            rcases le_total ((rest.map V).foldl min m) sc with hzs | hzs
            · rw [min_eq_right hzs] at h4
              exact le_trans (min_le_right _ _) h4
            · rw [min_eq_left hzs] at h4
              exact absurd (le_trans h4 hc) (not_le.mpr hsblt)
          · exact le_trans (I2 hc) (min_le_min hVle (le_refl _))
          · have h4 := I3 hc1 hc2
            rcases le_total ((rest.map V).foldl min m) sc with hzs | hzs
            · rw [min_eq_right hzs] at h4
              rw [h4, min_eq_right (le_trans hzs hVle)]
            · rw [min_eq_left hzs] at h4
              rw [h4] at hc2
              have hsm : m ≤ sc := by
                have hsc2 : min betaR m ≤ sc := by rw [← hbdef]; exact hsc
                rcases min_le_iff.mp hsc2 with h | h
                · exact absurd h (not_le.mpr hc2)
                · exact h
              have hz : sc = (rest.map V).foldl min m :=
                le_antisymm hzs (le_trans (foldl_min_le _ _) hsm)
              rw [h4, hz, min_eq_right (hz ▸ hVle)]

lemma minimax_gameOver (d : Nat) (s : GameState) (alpha beta : Int) (isMax : Bool)
    (ai : Nat) (hgo : s.gameOver = true) :
    minimax d s alpha beta isMax ai = evaluate s ai := by
  cases d with
  | zero => rfl
  | succ d => simp [minimax, hgo]

lemma minimaxFull_gameOver (d : Nat) (s : GameState) (isMax : Bool) (ai : Nat)
    (hgo : s.gameOver = true) : minimaxFull d s isMax ai = evaluate s ai := by
  cases d with
  | zero => rfl
  | succ d => simp [minimaxFull, hgo]

lemma minimax_pass (d : Nat) (s : GameState) (alpha beta : Int) (isMax : Bool)
    (ai : Nat) (hvm : s.validMoves = []) :
    minimax d s alpha beta isMax ai = evaluate s ai := by
  cases d with
  | zero => rfl
  | succ d =>
      by_cases hgo : s.gameOver
      · simp [minimax, hgo]
      · simp [minimax, hgo, hvm]

lemma minimaxFull_pass (d : Nat) (s : GameState) (isMax : Bool) (ai : Nat)
    (hvm : s.validMoves = []) : minimaxFull d s isMax ai = evaluate s ai := by
  cases d with
  | zero => rfl
  | succ d =>
      by_cases hgo : s.gameOver
      · simp [minimaxFull, hgo]
      · simp [minimaxFull, hgo, hvm]

lemma minimax_succ_max (d : Nat) (s : GameState) (alpha beta : Int) (ai : Nat)
    (hgo : s.gameOver = false) (hvm : s.validMoves ≠ []) :
    minimax (d + 1) s alpha beta true ai =
      abMax (fun mv a => minimax d (applyMove s mv) a beta false ai) beta
        s.validMoves alpha NEG_INF := by
  simp [minimax, hgo, hvm]

lemma minimax_succ_min (d : Nat) (s : GameState) (alpha beta : Int) (ai : Nat)
    (hgo : s.gameOver = false) (hvm : s.validMoves ≠ []) :
    minimax (d + 1) s alpha beta false ai =
      abMin (fun mv b => minimax d (applyMove s mv) alpha b true ai) alpha
        s.validMoves beta POS_INF := by
  simp [minimax, hgo, hvm]

lemma minimaxFull_succ_max (d : Nat) (s : GameState) (ai : Nat)
    (hgo : s.gameOver = false) (hvm : s.validMoves ≠ []) :
    minimaxFull (d + 1) s true ai =
      (s.validMoves.map fun mv => minimaxFull d (applyMove s mv) false ai).foldl
        max NEG_INF := by
  simp [minimaxFull, hgo, hvm]

lemma minimaxFull_succ_min (d : Nat) (s : GameState) (ai : Nat)
    (hgo : s.gameOver = false) (hvm : s.validMoves ≠ []) :
    minimaxFull (d + 1) s false ai =
      (s.validMoves.map fun mv => minimaxFull d (applyMove s mv) true ai).foldl
        min POS_INF := by
  simp [minimaxFull, hgo, hvm]

/-- Fail-soft trichotomy for the full search: inside the window the pruned
value is the unpruned value; a fail-low result upper-bounds it; a fail-high
result lower-bounds it. -/
lemma minimax_tri (d : Nat) :
    ∀ (s : GameState) (alpha beta : Int) (isMax : Bool) (ai : Nat),
    NEG_INF ≤ alpha → beta ≤ POS_INF → alpha < beta →
    (minimax d s alpha beta isMax ai ≤ alpha →
       minimaxFull d s isMax ai ≤ minimax d s alpha beta isMax ai) ∧
    (beta ≤ minimax d s alpha beta isMax ai →
       minimax d s alpha beta isMax ai ≤ minimaxFull d s isMax ai) ∧
    (alpha < minimax d s alpha beta isMax ai →
       minimax d s alpha beta isMax ai < beta →
       minimax d s alpha beta isMax ai = minimaxFull d s isMax ai) := by
  induction d with
  | zero =>
      intro s alpha beta isMax ai _ _ _
      exact ⟨fun _ => le_refl _, fun _ => le_refl _, fun _ _ => rfl⟩
  | succ d ih =>
      intro s alpha beta isMax ai hga hgb hab
      by_cases hgo : s.gameOver
      · rw [minimax_gameOver _ _ _ _ _ _ hgo, minimaxFull_gameOver _ _ _ _ hgo]
        exact ⟨fun _ => le_refl _, fun _ => le_refl _, fun _ _ => rfl⟩
      · rw [Bool.not_eq_true] at hgo
        by_cases hvm : s.validMoves = []
        · rw [minimax_pass _ _ _ _ _ _ hvm, minimaxFull_pass _ _ _ _ hvm]
          exact ⟨fun _ => le_refl _, fun _ => le_refl _, fun _ _ => rfl⟩
        · cases isMax with
          | true =>
              rw [minimax_succ_max _ _ _ _ _ hgo hvm, minimaxFull_succ_max _ _ _ hgo hvm]
              exact abMax_tri (fun mv => minimaxFull d (applyMove s mv) false ai)
                (fun mv a => minimax d (applyMove s mv) a beta false ai) alpha beta hga
                (fun mv a hna hab2 => ih (applyMove s mv) a beta false ai hna hgb hab2)
                s.validMoves alpha NEG_INF (le_refl _) (max_eq_left hga).symm hab
          | false =>
              rw [minimax_succ_min _ _ _ _ _ hgo hvm, minimaxFull_succ_min _ _ _ hgo hvm]
              exact abMin_tri (fun mv => minimaxFull d (applyMove s mv) true ai)
                (fun mv b => minimax d (applyMove s mv) alpha b true ai) beta alpha hgb
                (fun mv b hpb hab2 => ih (applyMove s mv) alpha b true ai hga hpb hab2)
                s.validMoves beta POS_INF (le_refl _) (min_eq_left hgb).symm hab

/-! ### Bounding the evaluator and the search values -/

/-- A generous bound on every evaluator value (the largest possible magnitude
is 10000 at a terminal state, 7624 otherwise). -/
def EB : Int := 100000

lemma nat_sum_le (l : List Nat) (K : Nat) (h : ∀ x ∈ l, x ≤ K) :
    l.sum ≤ l.length * K := by
  induction l with
  | nil => simp
  | cons x l ih =>
      simp only [List.sum_cons, List.length_cons]
      have h2 := ih (fun y hy => h y (List.mem_cons_of_mem _ hy))
      have hx := h x (by simp)
      calc x + l.sum ≤ K + l.length * K := Nat.add_le_add hx h2
        _ = (l.length + 1) * K := by ring

lemma int_abs_sum_le (l : List Int) (K : Int) (h : ∀ x ∈ l, |x| ≤ K) :
    |l.sum| ≤ (l.length : Int) * K := by
  induction l with
  | nil => simp
  | cons x l ih =>
      have h2 := ih (fun y hy => h y (List.mem_cons_of_mem _ hy))
      have hx := h x (by simp)
      have h3 : |x + l.sum| ≤ |x| + |l.sum| := abs_add _ _
      have h4 : (((x :: l).length : Nat) : Int) * K = K + (l.length : Int) * K := by
        push_cast [List.length_cons]
        ring
      rw [List.sum_cons, h4]
      linarith

lemma countCell_le (b : Board) (v : Nat) : countCell b v ≤ 64 := by
  unfold countCell
  have h : ∀ x ∈ (idx8.map fun r =>
      (idx8.map fun c => if cellAt b r c = some v then (1 : Nat) else 0).sum), x ≤ 8 := by
    intro x hx
    rcases List.mem_map.mp hx with ⟨r, _, rfl⟩
    have h2 : ∀ y ∈ (idx8.map fun c => if cellAt b r c = some v then (1 : Nat) else 0),
        y ≤ 1 := by
      intro y hy
      rcases List.mem_map.mp hy with ⟨c, _, rfl⟩
      split <;> simp
    have h3 := nat_sum_le _ 1 h2
    simpa [idx8] using h3
  have h4 := nat_sum_le _ 8 h
  simpa [idx8] using h4

lemma findValidMoves_length_le (b : Board) (p : Nat) :
    (findValidMoves b p).length ≤ 64 := by
  unfold findValidMoves
  rw [List.length_flatten]
  have h : ∀ x ∈ ((idx8.map fun r =>
      (idx8.filter fun c => isValidMove b r c p).map fun c => ((r, c) : Coord)).map
        List.length), x ≤ 8 := by
    intro x hx
    rcases List.mem_map.mp hx with ⟨l2, hl2, rfl⟩
    rcases List.mem_map.mp hl2 with ⟨r, _, rfl⟩
    rw [List.length_map]
    calc (idx8.filter fun c => isValidMove b r c p).length ≤ idx8.length :=
          List.length_filter_le _ _
      _ = 8 := by simp [idx8]
  have h4 := nat_sum_le _ 8 h
  simpa [idx8] using h4

lemma weightAt_bound : ∀ r ∈ idx8, ∀ c ∈ idx8, |weightAt r c| ≤ 100 := by decide

lemma sumCells_bound (f : Int → Int → Int) (K : Int)
    (h : ∀ r ∈ idx8, ∀ c ∈ idx8, |f r c| ≤ K) :
    |sumCells f| ≤ 64 * K := by
  unfold sumCells
  have hin : ∀ x ∈ (idx8.map fun r => (idx8.map (f r)).sum), |x| ≤ 8 * K := by
    intro x hx
    rcases List.mem_map.mp hx with ⟨r, hr, rfl⟩
    have h2 : ∀ y ∈ (idx8.map (f r)), |y| ≤ K := by
      intro y hy
      rcases List.mem_map.mp hy with ⟨c, hc, rfl⟩
      exact h r hr c hc
    have h3 := int_abs_sum_le _ K h2
    have h4 : ((idx8.map (f r)).length : Int) = 8 := by simp [idx8]
    rw [h4] at h3
    exact h3
  have h5 := int_abs_sum_le _ (8 * K) hin
  have h6 : (((idx8.map fun r => (idx8.map (f r)).sum).length) : Int) = 8 := by
    simp [idx8]
  rw [h6] at h5
  calc |sumCells f| ≤ 8 * (8 * K) := h5
    _ = 64 * K := by ring

lemma discTerm_bound (b : Board) (ai human : Nat) : |discTerm b ai human| ≤ 640 := by
  unfold discTerm
  have hsb64 : countCell b BLACK ≤ 64 := countCell_le _ _
  have hsw64 : countCell b WHITE ≤ 64 := countCell_le _ _
  have h1 : ((countCell b BLACK : Int)) ≤ 64 := by exact_mod_cast hsb64
  have h2 : ((countCell b WHITE : Int)) ≤ 64 := by exact_mod_cast hsw64
  have h3 : (0 : Int) ≤ (countCell b BLACK : Int) := Int.ofNat_nonneg _
  have h4 : (0 : Int) ≤ (countCell b WHITE : Int) := Int.ofNat_nonneg _
  have e1 : |(if ai = WHITE then (countCell b WHITE : Int) else (countCell b BLACK : Int)) -
      (if ai = WHITE then (countCell b BLACK : Int) else (countCell b WHITE : Int))| ≤ 64 := by
    split <;> (rw [abs_le]; constructor <;> linarith)
  have e1w : |(if countCell b BLACK + countCell b WHITE > 50 then (10 : Int) else 1)| ≤ 10 := by
    split <;> decide
  rw [abs_mul]
  calc _ ≤ (64 : Int) * 10 := mul_le_mul e1 e1w (abs_nonneg _) (by norm_num)
    _ = 640 := by norm_num

lemma posTerm_bound (b : Board) (ai human : Nat) : |posTerm b ai human| ≤ 6400 := by
  unfold posTerm
  have h := sumCells_bound (fun r c =>
      if cellAt b r c = some ai then weightAt r c
      else if cellAt b r c = some human then -weightAt r c else 0) 100 ?_
  · calc _ ≤ (64 : Int) * 100 := h
      _ = 6400 := by norm_num
  · intro r hr c hc
    have hw := weightAt_bound r hr c hc
    dsimp only
    split
    · exact hw
    · split
      · rw [abs_neg]; exact hw
      · simp

lemma mobTerm_bound (b : Board) (ai human : Nat) : |mobTerm b ai human| ≤ 320 := by
  unfold mobTerm
  have h1 : ((findValidMoves b ai).length : Int) ≤ 64 := by
    exact_mod_cast findValidMoves_length_le _ _
  have h2 : ((findValidMoves b human).length : Int) ≤ 64 := by
    exact_mod_cast findValidMoves_length_le _ _
  have h3 : (0 : Int) ≤ ((findValidMoves b ai).length : Int) := Int.ofNat_nonneg _
  have h4 : (0 : Int) ≤ ((findValidMoves b human).length : Int) := Int.ofNat_nonneg _
  have h5 : |(((findValidMoves b ai).length : Int) -
      ((findValidMoves b human).length : Int))| ≤ 64 := by
    rw [abs_le]; constructor <;> linarith
  rw [abs_mul]
  calc _ ≤ (64 : Int) * 5 :=
        mul_le_mul h5 (by norm_num) (abs_nonneg _) (by norm_num)
    _ = 320 := by norm_num

lemma cornerTerm_bound (b : Board) (ai human : Nat) : |cornerTerm b ai human| ≤ 200 := by
  unfold cornerTerm
  have h := int_abs_sum_le (corners.map fun q =>
      if cellAt b q.1 q.2 = some ai then (50 : Int)
      else if cellAt b q.1 q.2 = some human then -50 else 0) 50 ?_
  · have hlen : (((corners.map fun q =>
        if cellAt b q.1 q.2 = some ai then (50 : Int)
        else if cellAt b q.1 q.2 = some human then -50 else 0).length) : Int) = 4 := by
      simp [corners]
    rw [hlen] at h
    calc _ ≤ (4 : Int) * 50 := h
      _ = 200 := by norm_num
  · intro x hx
    rcases List.mem_map.mp hx with ⟨q, _, rfl⟩
    split
    · decide
    · split <;> decide

lemma evaluateEdges_bound (b : Board) (ai human : Nat) :
    |evaluateEdges b ai human| ≤ 64 := by
  unfold evaluateEdges
  have hin : ∀ x ∈ (edges.map fun e =>
      (e.map fun q =>
        if cellAt b q.1 q.2 = some ai then (2 : Int)
        else if cellAt b q.1 q.2 = some human then -2 else 0).sum), |x| ≤ 16 := by
    intro x hx
    rcases List.mem_map.mp hx with ⟨e, he, rfl⟩
    have h2 : ∀ y ∈ (e.map fun q =>
        if cellAt b q.1 q.2 = some ai then (2 : Int)
        else if cellAt b q.1 q.2 = some human then -2 else 0), |y| ≤ 2 := by
      intro y hy
      rcases List.mem_map.mp hy with ⟨q, _, rfl⟩
      split
      · decide
      · split <;> decide
    have h3 := int_abs_sum_le _ 2 h2
    rw [List.length_map] at h3
    have helen : ((e.length : Nat) : Int) = 8 := by fin_cases he <;> decide
    rw [helen] at h3
    calc _ ≤ (8 : Int) * 2 := h3
      _ = 16 := by norm_num
  have h5 := int_abs_sum_le _ 16 hin
  have hlen : (((edges.map fun e =>
      (e.map fun q =>
        if cellAt b q.1 q.2 = some ai then (2 : Int)
        else if cellAt b q.1 q.2 = some human then -2 else 0).sum).length) : Int) = 4 := by
    simp [edges]
  rw [hlen] at h5
  calc _ ≤ (4 : Int) * 16 := h5
    _ = 64 := by norm_num

lemma abs_le_EB_of (x : Int) (h1 : -100000 ≤ x) (h2 : x ≤ 100000) : |x| ≤ EB := by
  rw [show EB = 100000 from rfl, abs_le]
  exact ⟨h1, h2⟩

lemma evaluate_bound (s : GameState) (ai : Nat) : |evaluate s ai| ≤ EB := by
  by_cases hgo : s.gameOver
  · simp only [evaluate, hgo, if_true]
    refine abs_le_EB_of _ ?_ ?_ <;> split_ifs <;> norm_num
  · rw [Bool.not_eq_true] at hgo
    simp only [evaluate, hgo, Bool.false_eq_true, if_false]
    have h1 := discTerm_bound s.board ai (if ai = WHITE then BLACK else WHITE)
    have h2 := posTerm_bound s.board ai (if ai = WHITE then BLACK else WHITE)
    have h3 := mobTerm_bound s.board ai (if ai = WHITE then BLACK else WHITE)
    have h4 := cornerTerm_bound s.board ai (if ai = WHITE then BLACK else WHITE)
    have h5 := evaluateEdges_bound s.board ai (if ai = WHITE then BLACK else WHITE)
    set A := discTerm s.board ai (if ai = WHITE then BLACK else WHITE) with hA
    set B := posTerm s.board ai (if ai = WHITE then BLACK else WHITE) with hB
    set C := mobTerm s.board ai (if ai = WHITE then BLACK else WHITE) with hC
    set D := cornerTerm s.board ai (if ai = WHITE then BLACK else WHITE) with hD
    set E := evaluateEdges s.board ai (if ai = WHITE then BLACK else WHITE) with hE
    have ha1 := abs_add (A + B + C + D) E
    have ha2 := abs_add (A + B + C) D
    have ha3 := abs_add (A + B) C
    have ha4 := abs_add A B
    have hEB : EB = 100000 := rfl
    rw [hEB]
    linarith

lemma minimaxFull_bound (d : Nat) : ∀ (s : GameState) (isMax : Bool) (ai : Nat),
    |minimaxFull d s isMax ai| ≤ EB := by
  induction d with
  | zero => intro s isMax ai; exact evaluate_bound s ai
  | succ d ih =>
      intro s isMax ai
      by_cases hgo : s.gameOver
      · rw [minimaxFull_gameOver _ _ _ _ hgo]
        exact evaluate_bound s ai
      · rw [Bool.not_eq_true] at hgo
        by_cases hvm : s.validMoves = []
        · rw [minimaxFull_pass _ _ _ _ hvm]
          exact evaluate_bound s ai
        · cases isMax with
          | true =>
              rw [minimaxFull_succ_max _ _ _ hgo hvm]
              rcases hl : s.validMoves with _ | ⟨mv, rest⟩
              · exact absurd hl hvm
              · rw [abs_le]
                constructor
                · have hmem : minimaxFull d (applyMove s mv) false ai ∈
                      ((mv :: rest).map fun q => minimaxFull d (applyMove s q) false ai) := by
                    simp
                  have h1 := mem_le_foldl_max
                    ((mv :: rest).map fun q => minimaxFull d (applyMove s q) false ai)
                    NEG_INF _ hmem
                  have h2 := (abs_le.mp (ih (applyMove s mv) false ai)).1
                  exact le_trans h2 h1
                · refine foldl_max_le _ EB NEG_INF (by decide) ?_
                  intro y hy
                  rcases List.mem_map.mp hy with ⟨q, _, rfl⟩
                  exact (abs_le.mp (ih (applyMove s q) false ai)).2
          | false =>
              rw [minimaxFull_succ_min _ _ _ hgo hvm]
              rcases hl : s.validMoves with _ | ⟨mv, rest⟩
              · exact absurd hl hvm
              · rw [abs_le]
                constructor
                · refine le_foldl_min _ (-EB) POS_INF (by decide) ?_
                  intro y hy
                  rcases List.mem_map.mp hy with ⟨q, _, rfl⟩
                  exact (abs_le.mp (ih (applyMove s q) true ai)).1
                · have hmem : minimaxFull d (applyMove s mv) true ai ∈
                      ((mv :: rest).map fun q => minimaxFull d (applyMove s q) true ai) := by
                    simp
                  have h1 := foldl_min_le_mem
                    ((mv :: rest).map fun q => minimaxFull d (applyMove s q) true ai)
                    POS_INF _ hmem
                  have h2 := (abs_le.mp (ih (applyMove s mv) true ai)).2
                  exact le_trans h1 h2

/-- At the root the window is full, so pruning is invisible: each root
candidate's alpha-beta score is its exact unpruned minimax score. -/
lemma rootScore_eq_rootScoreFull (s : GameState) (depth : Nat) (mv : Coord) :
    rootScore s depth mv = rootScoreFull s depth mv := by
  unfold rootScore rootScoreFull
  have htri := minimax_tri (depth - 1) (applyMove s mv) NEG_INF POS_INF false WHITE
    (le_refl _) (le_refl _) (by decide)
  have hb := abs_le.mp (minimaxFull_bound (depth - 1) (applyMove s mv) false WHITE)
  have h1 : NEG_INF < minimax (depth - 1) (applyMove s mv) NEG_INF POS_INF false WHITE := by
    by_contra hq
    push_neg at hq
    have h2 := htri.1 hq
    have h3 : (-EB : Int) ≤ NEG_INF := le_trans hb.1 (le_trans h2 hq)
    exact absurd h3 (by decide)
  have h2 : minimax (depth - 1) (applyMove s mv) NEG_INF POS_INF false WHITE < POS_INF := by
    by_contra hq
    push_neg at hq
    have h3 := htri.2.1 hq
    have h4 : (POS_INF : Int) ≤ EB := le_trans hq (le_trans h3 hb.2)
    exact absurd h4 (by decide)
  exact htri.2.2 h1 h2

lemma searchLoop_congr (f g : Coord → Int) (hfg : ∀ mv, f mv = g mv) :
    ∀ (ms : List Coord) (b : Coord × Int), searchLoop f ms b = searchLoop g ms b := by
  intro ms
  induction ms with
  | nil => intro b; rfl
  | cons mv rest ih =>
      intro b
      simp only [searchLoop, hfg]
      exact ih _

/-- C3: with the window left full at every root candidate, alpha-beta
returns the same selected root move and the same root score as the unpruned
full-width traversal. -/
theorem getMove_eq_unpruned (s : GameState) (depth : Nat) :
    getMove s depth = getMoveFull s depth ∧
    (∀ mv, rootScore s depth mv = rootScoreFull s depth mv) := by
  have hpt := rootScore_eq_rootScoreFull s depth
  refine ⟨?_, hpt⟩
  unfold getMove getMoveFull
  cases hms : s.validMoves with
  | nil => rfl
  | cons m0 rest =>
      cases rest with
      | nil => rfl
      | cons m1 rest2 =>
          show some (searchLoop (rootScore s depth) (m0 :: m1 :: rest2) (m0, NEG_INF)).1 =
            some (searchLoop (rootScoreFull s depth) (m0 :: m1 :: rest2) (m0, NEG_INF)).1
          rw [searchLoop_congr (rootScore s depth) (rootScoreFull s depth) hpt]

/-- C8: at a node with positive depth, game not over and no legal move for
the side to move (cache in sync), `minimax` returns the static evaluation
directly. -/
theorem minimax_forced_pass (s : GameState) (depth : Nat) (alpha beta : Int)
    (isMax : Bool) (ai : Nat) (hd : 0 < depth) (hgo : s.gameOver = false)
    (hmv : findValidMoves s.board s.currentPlayer = [])
    (hcache : s.validMoves = findValidMoves s.board s.currentPlayer) :
    minimax depth s alpha beta isMax ai = evaluate s ai :=
  minimax_pass depth s alpha beta isMax ai (hcache.trans hmv)

/-- An artificial quiet position: the empty board has no legal move for
either side yet is not flagged game-over. -/
def passState : GameState :=
  { board := [[0, 0, 0, 0, 0, 0, 0, 0],
              [0, 0, 0, 0, 0, 0, 0, 0],
              [0, 0, 0, 0, 0, 0, 0, 0],
              [0, 0, 0, 0, 0, 0, 0, 0],
              [0, 0, 0, 0, 0, 0, 0, 0],
              [0, 0, 0, 0, 0, 0, 0, 0],
              [0, 0, 0, 0, 0, 0, 0, 0],
              [0, 0, 0, 0, 0, 0, 0, 0]],
    currentPlayer := BLACK,
    gameOver := false,
    winner := none,
    lastMove := none,
    flippedDiscs := [],
    validMoves := [],
    moveHistory := [] }

/-- Witness for `minimax_forced_pass` at the empty board, depth 1. -/
theorem minimax_forced_pass_witness :
    minimax 1 passState NEG_INF POS_INF true WHITE = evaluate passState WHITE :=
  minimax_forced_pass passState 1 NEG_INF POS_INF true WHITE (by decide) rfl
    (by decide) (by decide)

/-- The root loop keeps the first strict maximum: either nothing beat the
running pair, or the result is the first candidate attaining the maximum. -/
lemma searchLoop_first_max (f : Coord → Int) :
    ∀ (ms : List Coord) (b : Coord × Int),
      (searchLoop f ms b = b ∧ ∀ mv ∈ ms, f mv ≤ b.2) ∨
      (∃ i : Fin ms.length,
        searchLoop f ms b = (ms.get i, f (ms.get i)) ∧ b.2 < f (ms.get i) ∧
        (∀ mv ∈ ms, f mv ≤ f (ms.get i)) ∧
        (∀ j : Fin ms.length, (j : Nat) < (i : Nat) → f (ms.get j) < f (ms.get i))) := by
  intro ms
  induction ms with
  | nil => intro b; exact Or.inl ⟨rfl, by simp⟩
  | cons mv rest ih =>
      intro b
      simp only [searchLoop]
      by_cases h : f mv > b.2
      · rw [if_pos h]
        rcases ih (mv, f mv) with ⟨heq, hle⟩ | ⟨i, heq, hlt, hmax, hfirst⟩
        · refine Or.inr ⟨⟨0, Nat.succ_pos _⟩, heq, h, ?_, ?_⟩
          · intro x hx
            rcases List.mem_cons.mp hx with rfl | hx
            · exact le_refl _
            · exact hle x hx
          · intro j hj
            exact absurd hj (Nat.not_lt_zero _)
        · refine Or.inr ⟨⟨(i : Nat) + 1, Nat.succ_lt_succ i.isLt⟩, ?_, ?_, ?_, ?_⟩
          · exact heq
          · exact lt_trans h hlt
          · intro x hx
            rcases List.mem_cons.mp hx with rfl | hx
            · exact le_of_lt hlt
            · exact hmax x hx
          · intro j hj
            rcases j with ⟨jv, hjlt⟩
            cases jv with
            | zero => exact hlt
            | succ jv =>
                exact hfirst ⟨jv, Nat.lt_of_succ_lt_succ hjlt⟩
                  (Nat.lt_of_succ_lt_succ hj)
      · rw [if_neg h]
        push_neg at h
        rcases ih b with ⟨heq, hle⟩ | ⟨i, heq, hlt, hmax, hfirst⟩
        · refine Or.inl ⟨heq, ?_⟩
          intro x hx
          rcases List.mem_cons.mp hx with rfl | hx
          · exact h
          · exact hle x hx
        · refine Or.inr ⟨⟨(i : Nat) + 1, Nat.succ_lt_succ i.isLt⟩, heq, ?_, ?_, ?_⟩
          · exact hlt
          · intro x hx
            rcases List.mem_cons.mp hx with rfl | hx
            · exact le_of_lt (lt_of_le_of_lt h hlt)
            · exact hmax x hx
          · intro j hj
            rcases j with ⟨jv, hjlt⟩
            cases jv with
            | zero => exact lt_of_le_of_lt h hlt
            | succ jv =>
                exact hfirst ⟨jv, Nat.lt_of_succ_lt_succ hjlt⟩
                  (Nat.lt_of_succ_lt_succ hj)

lemma rootScore_gt_NEG_INF (s : GameState) (depth : Nat) (mv : Coord) :
    NEG_INF < rootScore s depth mv := by
  rw [rootScore_eq_rootScoreFull]
  have hb := (abs_le.mp (minimaxFull_bound (depth - 1) (applyMove s mv) false WHITE)).1
  have h2 : (NEG_INF : Int) < -EB := by decide
  exact lt_of_lt_of_le h2 hb

/-- C5: `getMove` returns none without legal moves, the unique legal move
immediately (for every depth, hence without consulting the search), and
otherwise the first candidate in enumeration order whose score strictly
exceeds every earlier candidate's and is never beaten later. -/
theorem getMove_selection (s : GameState) (depth : Nat)
    (hcache : s.validMoves = findValidMoves s.board s.currentPlayer) :
    (findValidMoves s.board s.currentPlayer = [] → getMove s depth = none) ∧
    (∀ m, findValidMoves s.board s.currentPlayer = [m] → ∀ d2, getMove s d2 = some m) ∧
    (∀ m0 m1 rest, s.validMoves = m0 :: m1 :: rest →
       ∃ i : Fin (m0 :: m1 :: rest).length,
         getMove s depth = some ((m0 :: m1 :: rest).get i) ∧
         (∀ mv ∈ m0 :: m1 :: rest,
            rootScore s depth mv ≤ rootScore s depth ((m0 :: m1 :: rest).get i)) ∧
         (∀ j : Fin (m0 :: m1 :: rest).length, (j : Nat) < (i : Nat) →
            rootScore s depth ((m0 :: m1 :: rest).get j) <
              rootScore s depth ((m0 :: m1 :: rest).get i))) := by
  refine ⟨?_, ?_, ?_⟩
  · intro hmv
    have h := hcache.trans hmv
    simp [getMove, h]
  · intro m hmv d2
    have h := hcache.trans hmv
    simp [getMove, h]
  · intro m0 m1 rest hms
    rcases searchLoop_first_max (rootScore s depth) (m0 :: m1 :: rest) (m0, NEG_INF) with
      ⟨_, hle⟩ | ⟨i, heq, _, hmax, hfirst⟩
    · have h0 := hle m0 (by simp)
      exact absurd h0 (not_le.mpr (rootScore_gt_NEG_INF s depth m0))
    · refine ⟨i, ?_, hmax, hfirst⟩
      have hgm : getMove s depth =
          some (searchLoop (rootScore s depth) (m0 :: m1 :: rest) (m0, NEG_INF)).1 := by
        unfold getMove
        rw [hms]
      rw [hgm, heq]

/-- Witness for `getMove_selection` at the initial position (four legal
moves), depth 1. -/
theorem getMove_selection_witness :
    (findValidMoves initialState.board initialState.currentPlayer = [] →
       getMove initialState 1 = none) ∧
    (∀ m, findValidMoves initialState.board initialState.currentPlayer = [m] →
       ∀ d2, getMove initialState d2 = some m) ∧
    (∀ m0 m1 rest, initialState.validMoves = m0 :: m1 :: rest →
       ∃ i : Fin (m0 :: m1 :: rest).length,
         getMove initialState 1 = some ((m0 :: m1 :: rest).get i) ∧
         (∀ mv ∈ m0 :: m1 :: rest,
            rootScore initialState 1 mv ≤ rootScore initialState 1 ((m0 :: m1 :: rest).get i)) ∧
         (∀ j : Fin (m0 :: m1 :: rest).length, (j : Nat) < (i : Nat) →
            rootScore initialState 1 ((m0 :: m1 :: rest).get j) <
              rootScore initialState 1 ((m0 :: m1 :: rest).get i))) :=
  getMove_selection initialState 1 rfl

/-! ### The evaluator as the specification words it (claim C4) -/

/-- Modelled from the spec (§4.2): the 8×8 weight table exactly as printed
in the specification. -/
def specWeights : List (List Int) :=
  [[100, -20, 10,  5,  5, 10, -20, 100],
   [-20, -50, -2, -2, -2, -2, -50, -20],
   [ 10,  -2,  1,  1,  1,  1,  -2,  10],
   [  5,  -2,  1,  0,  0,  1,  -2,   5],
   [  5,  -2,  1,  0,  0,  1,  -2,   5],
   [ 10,  -2,  1,  1,  1,  1,  -2,  10],
   [-20, -50, -2, -2, -2, -2, -50, -20],
   [100, -20, 10,  5,  5, 10, -20, 100]]

/-- Lookup into the spec's table. -/
def specWeightAt (r c : Int) : Int := (specWeights.getD r.toNat []).getD c.toNat 0

/-- Modelled from the spec: how many of the four border lines (row 0, row 7,
col 0, col 7) pass through a cell; corner cells lie on two. -/
def borderLines (r c : Int) : Int :=
  (if r = 0 then 1 else 0) + (if r = 7 then 1 else 0) +
  (if c = 0 then 1 else 0) + (if c = 7 then 1 else 0)

/-- Modelled from the spec (§4.2): terminal scores first, otherwise the sum
of five terms — disc differential with endgame weight, the positional table,
5× mobility, ±50 per corner, and ±2 per border-line incidence (corners
counted twice). -/
def evalSpec (s : GameState) (p : Nat) : Int :=
  let q := if p = WHITE then BLACK else WHITE
  if s.gameOver then
    if s.winner = some p then 10000
    else if s.winner = some q then -10000
    else 0
  else
    let total := countCell s.board BLACK + countCell s.board WHITE
    let w : Int := if total > 50 then 10 else 1
    ((countCell s.board p : Int) - (countCell s.board q : Int)) * w
    + sumCells (fun r c =>
        if cellAt s.board r c = some p then specWeightAt r c
        else if cellAt s.board r c = some q then -specWeightAt r c else 0)
    + 5 * (((findValidMoves s.board p).length : Int)
        - ((findValidMoves s.board q).length : Int))
    + (([(0, 0), (0, 7), (7, 0), (7, 7)] : List Coord).map fun t =>
        if cellAt s.board t.1 t.2 = some p then (50 : Int)
        else if cellAt s.board t.1 t.2 = some q then -50 else 0).sum
    + sumCells (fun r c => borderLines r c *
        (if cellAt s.board r c = some p then (2 : Int)
         else if cellAt s.board r c = some q then -2 else 0))

/-- The four-line border scan equals the per-cell border-multiplicity sum,
for any per-cell contribution: corner cells are counted twice. -/
lemma border_scan (g : Int → Int → Int) :
    ((edges.map fun e => (e.map fun t => g t.1 t.2).sum).sum) =
      sumCells (fun r c => borderLines r c * g r c) := by
  simp [edges, sumCells, idx8, borderLines]
  ring

/-- The four-border-line scan of the source equals the per-cell
border-multiplicity sum of the spec, corners weighted twice. -/
lemma evaluateEdges_as_border (b : Board) (p q : Nat) :
    evaluateEdges b p q = sumCells (fun r c => borderLines r c *
      (if cellAt b r c = some p then (2 : Int)
       else if cellAt b r c = some q then -2 else 0)) :=
  border_scan (fun r c =>
    if cellAt b r c = some p then (2 : Int)
    else if cellAt b r c = some q then -2 else 0)

/-- C4: the evaluator computes exactly the spec's formula — terminal
dominance, then disc differential (endgame weight 10 past 50 discs), the
fixed table, 5× mobility by full scans, ±50 per corner, and ±2 per
border-line cell with corners double-counted. -/
theorem evaluate_matches_spec (s : GameState) (p : Nat)
    (hp : p = BLACK ∨ p = WHITE) : evaluate s p = evalSpec s p := by
  have hedge := evaluateEdges_as_border s.board
  have hqB : (if BLACK = WHITE then BLACK else WHITE) = WHITE := rfl
  have hqW : (if WHITE = WHITE then BLACK else WHITE) = BLACK := rfl
  rcases hp with rfl | rfl <;> by_cases hgo : s.gameOver
  · simp [evaluate, evalSpec, hgo]
  · rw [Bool.not_eq_true] at hgo
    simp only [evaluate, evalSpec, hgo, Bool.false_eq_true, if_false, hqB]
    rw [hedge BLACK WHITE]
    rw [show mobTerm s.board BLACK WHITE =
          5 * (((findValidMoves s.board BLACK).length : Int) -
            ((findValidMoves s.board WHITE).length : Int)) from by unfold mobTerm; ring]
    rfl
  · simp [evaluate, evalSpec, hgo]
  · rw [Bool.not_eq_true] at hgo
    simp only [evaluate, evalSpec, hgo, Bool.false_eq_true, if_false, hqW,
      eq_self_iff_true, if_true]
    rw [hedge WHITE BLACK]
    rw [show mobTerm s.board WHITE BLACK =
          5 * (((findValidMoves s.board WHITE).length : Int) -
            ((findValidMoves s.board BLACK).length : Int)) from by unfold mobTerm; ring]
    rfl

/-- Witness for `evaluate_matches_spec` at the initial position. -/
theorem evaluate_matches_spec_witness :
    evaluate initialState BLACK = evalSpec initialState BLACK :=
  evaluate_matches_spec initialState BLACK (Or.inl rfl)

/-! ### Board well-formedness and single-cell updates (claim C6) -/

/-- An 8×8 board whose cells are empty, black or white. -/
def wfBoard (b : Board) : Prop :=
  b.length = 8 ∧ (∀ row ∈ b, row.length = 8) ∧
    (∀ row ∈ b, ∀ v ∈ row, v = 0 ∨ v = 1 ∨ v = 2)

lemma getD_row_mem (b : Board) (i : Nat) (h : i < b.length) : b.getD i [] ∈ b := by
  rcases hex : b[i]? with _ | row
  · rw [List.getElem?_eq_none_iff] at hex
    omega
  · have := List.getElem?_mem hex
    rw [List.getD_eq_getElem?_getD, hex]
    exact this

lemma cellAt_some_bounds (b : Board) (hb : b.length = 8)
    (hrow : ∀ row ∈ b, row.length = 8) (r c : Int) (v : Nat)
    (h : cellAt b r c = some v) : 0 ≤ r ∧ r < 8 ∧ 0 ≤ c ∧ c < 8 := by
  unfold cellAt at h
  by_cases hpos : 0 ≤ r ∧ 0 ≤ c
  · rw [if_pos hpos] at h
    rcases Option.bind_eq_some.mp h with ⟨row2, h1, h2⟩
    have hr : r.toNat < b.length := by
      by_contra hq
      rw [List.getElem?_eq_none (by omega)] at h1
      cases h1
    have hc : c.toNat < row2.length := by
      by_contra hq
      rw [List.getElem?_eq_none (by omega)] at h2
      cases h2
    have hrowlen : row2.length = 8 := hrow row2 (List.getElem?_mem h1)
    refine ⟨hpos.1, ?_, hpos.2, ?_⟩ <;> omega
  · rw [if_neg hpos] at h
    cases h

lemma cellAt_some_val (b : Board) (hwf : wfBoard b) (r c : Int) (v : Nat)
    (h : cellAt b r c = some v) : v = 0 ∨ v = 1 ∨ v = 2 := by
  obtain ⟨hb, hrow, hval⟩ := hwf
  unfold cellAt at h
  by_cases hpos : 0 ≤ r ∧ 0 ≤ c
  · rw [if_pos hpos] at h
    rcases Option.bind_eq_some.mp h with ⟨row2, h1, h2⟩
    exact hval _ (List.getElem?_mem h1) _ (List.getElem?_mem h2)
  · rw [if_neg hpos] at h
    cases h

lemma cellAt_isSome (b : Board) (hb : b.length = 8)
    (hrow : ∀ row ∈ b, row.length = 8) (r c : Int)
    (hr0 : 0 ≤ r) (hr8 : r < 8) (hc0 : 0 ≤ c) (hc8 : c < 8) :
    ∃ v, cellAt b r c = some v := by
  unfold cellAt
  rw [if_pos ⟨hr0, hc0⟩]
  rcases hex : b[r.toNat]? with _ | row
  · rw [List.getElem?_eq_none_iff] at hex
    omega
  · have hlen : row.length = 8 := hrow _ (List.getElem?_mem hex)
    rcases hex2 : row[c.toNat]? with _ | v
    · rw [List.getElem?_eq_none_iff] at hex2
      omega
    · exact ⟨v, by rw [Option.some_bind, hex2]⟩

lemma setCell_dims (b : Board) (hb : b.length = 8)
    (hrow : ∀ row ∈ b, row.length = 8) (r c : Int) (v : Nat)
    (hr0 : 0 ≤ r) (hr8 : r < 8) :
    (setCell b r c v).length = 8 ∧ ∀ row ∈ setCell b r c v, row.length = 8 := by
  unfold setCell
  refine ⟨by rw [List.length_set]; exact hb, ?_⟩
  intro row hmem
  rcases List.mem_or_eq_of_mem_set hmem with h | h
  · exact hrow _ h
  · subst h
    rw [List.length_set]
    exact hrow _ (getD_row_mem b r.toNat (by omega))

lemma setCell_wf (b : Board) (hwf : wfBoard b) (r c : Int) (v : Nat)
    (hr0 : 0 ≤ r) (hr8 : r < 8) (hv : v = 0 ∨ v = 1 ∨ v = 2) :
    wfBoard (setCell b r c v) := by
  obtain ⟨hb, hrow, hval⟩ := hwf
  obtain ⟨h1, h2⟩ := setCell_dims b hb hrow r c v hr0 hr8
  refine ⟨h1, h2, ?_⟩
  intro row hmem w hw
  unfold setCell at hmem
  rcases List.mem_or_eq_of_mem_set hmem with h | h
  · exact hval _ h _ hw
  · subst h
    rcases List.mem_or_eq_of_mem_set hw with h | h
    · exact hval _ (getD_row_mem b r.toNat (by omega)) _ h
    · subst h
      exact hv

lemma cellAt_setCell_self (b : Board) (hb : b.length = 8)
    (hrow : ∀ row ∈ b, row.length = 8) (r c : Int) (v : Nat)
    (hr0 : 0 ≤ r) (hr8 : r < 8) (hc0 : 0 ≤ c) (hc8 : c < 8) :
    cellAt (setCell b r c v) r c = some v := by
  unfold cellAt setCell
  rw [if_pos ⟨hr0, hc0⟩]
  have h1 : r.toNat < b.length := by omega
  have hrowlen : (b.getD r.toNat []).length = 8 := hrow _ (getD_row_mem b r.toNat h1)
  rw [List.getElem?_set_self (by omega), Option.some_bind]
  exact List.getElem?_set_self (by omega)

lemma cellAt_setCell_other (b : Board) (hb : b.length = 8)
    (hrow : ∀ row ∈ b, row.length = 8) (r c r2 c2 : Int) (v : Nat)
    (hr0 : 0 ≤ r) (hr8 : r < 8) (hc0 : 0 ≤ c) (hc8 : c < 8)
    (hne : r2 ≠ r ∨ c2 ≠ c) :
    cellAt (setCell b r c v) r2 c2 = cellAt b r2 c2 := by
  unfold cellAt setCell
  by_cases hpos : 0 ≤ r2 ∧ 0 ≤ c2
  · rw [if_pos hpos, if_pos hpos]
    by_cases hrr : r2 = r
    · subst hrr
      have hcc : c2 ≠ c := by
        rcases hne with h | h
        · exact absurd rfl h
        · exact h
      have hr2n : r2.toNat < b.length := by omega
      rw [List.getElem?_set_self (by omega), Option.some_bind]
      rcases hex : b[r2.toNat]? with _ | row
      · rw [List.getElem?_eq_none_iff] at hex
        omega
      · have hgd : b.getD r2.toNat [] = row := by
          rw [List.getD_eq_getElem?_getD, hex]
          rfl
        rw [hgd, Option.some_bind]
        exact List.getElem?_set_ne (by omega)
    · rw [List.getElem?_set_ne (by omega)]
  · rw [if_neg hpos, if_neg hpos]

lemma idx8_sum_eq (g : Int → Nat) :
    (idx8.map g).sum = ∑ i in Finset.range 8, g (i : Int) := by
  simp [idx8, Finset.sum_range_succ]
  ring

lemma countCell_finset (b : Board) (v : Nat) :
    countCell b v = ∑ r in Finset.range 8, ∑ c in Finset.range 8,
      (if cellAt b (r : Int) (c : Int) = some v then 1 else 0) := by
  unfold countCell
  rw [idx8_sum_eq (fun r => (idx8.map fun c => if cellAt b r c = some v then 1 else 0).sum)]
  refine Finset.sum_congr rfl fun r _ => ?_
  exact idx8_sum_eq _

lemma sum_update_point (f g : Nat → Nat) (i : Nat) (hi : i < 8)
    (hoff : ∀ j ∈ Finset.range 8, j ≠ i → f j = g j) :
    (∑ j in Finset.range 8, f j) + g i = (∑ j in Finset.range 8, g j) + f i := by
  have h1 := Finset.sum_erase_add (Finset.range 8) f (Finset.mem_range.mpr hi)
  have h2 := Finset.sum_erase_add (Finset.range 8) g (Finset.mem_range.mpr hi)
  have h3 : ∑ j in (Finset.range 8).erase i, f j = ∑ j in (Finset.range 8).erase i, g j :=
    Finset.sum_congr rfl fun j hj =>
      hoff j (Finset.mem_of_mem_erase hj) (Finset.ne_of_mem_erase hj)
  omega

lemma countCell_setCell (b : Board) (hb : b.length = 8)
    (hrow : ∀ row ∈ b, row.length = 8) (r c : Int) (v u : Nat)
    (hr0 : 0 ≤ r) (hr8 : r < 8) (hc0 : 0 ≤ c) (hc8 : c < 8) :
    countCell (setCell b r c v) u + (if cellAt b r c = some u then 1 else 0) =
      countCell b u + (if v = u then 1 else 0) := by
  rw [countCell_finset, countCell_finset]
  have hrcast : ((r.toNat : Nat) : Int) = r := Int.toNat_of_nonneg hr0
  have hccast : ((c.toNat : Nat) : Int) = c := Int.toNat_of_nonneg hc0
  have hinner : (∑ c2 in Finset.range 8,
        (if cellAt (setCell b r c v) (r.toNat : Int) (c2 : Int) = some u then 1 else 0)) +
        (if cellAt b r c = some u then 1 else 0) =
      (∑ c2 in Finset.range 8,
        (if cellAt b (r.toNat : Int) (c2 : Int) = some u then 1 else 0)) +
        (if v = u then 1 else 0) := by
    have hpt := sum_update_point
      (fun c2 => if cellAt (setCell b r c v) (r.toNat : Int) (c2 : Int) = some u then 1 else 0)
      (fun c2 => if cellAt b (r.toNat : Int) (c2 : Int) = some u then 1 else 0)
      c.toNat (by omega) ?_
    · dsimp only at hpt
      have hc1 : cellAt b (r.toNat : Int) ((c.toNat : Nat) : Int) = cellAt b r c := by
        rw [hrcast, hccast]
      have hc2 : cellAt (setCell b r c v) (r.toNat : Int) ((c.toNat : Nat) : Int) = some v := by
        rw [hrcast, hccast]
        exact cellAt_setCell_self b hb hrow r c v hr0 hr8 hc0 hc8
      rw [hc1, hc2] at hpt
      have hvv : (if some v = some u then 1 else 0) = (if v = u then 1 else 0) := by
        by_cases h : v = u
        · rw [if_pos h, if_pos (by rw [h])]
        · rw [if_neg h, if_neg (by intro hq; injection hq with hq; exact h hq)]
      rw [hvv] at hpt
      omega
    · intro j hj hne
      have heq : cellAt (setCell b r c v) (r.toNat : Int) (j : Int) =
          cellAt b (r.toNat : Int) (j : Int) := by
        refine cellAt_setCell_other b hb hrow r c _ _ v hr0 hr8 hc0 hc8 (Or.inr ?_)
        intro hq
        rw [← hccast] at hq
        have := Int.ofNat_inj.mp hq
        exact hne this
      dsimp only
      rw [heq]
  have houter := sum_update_point
    (fun r2 => ∑ c2 in Finset.range 8,
      (if cellAt (setCell b r c v) (r2 : Int) (c2 : Int) = some u then 1 else 0))
    (fun r2 => ∑ c2 in Finset.range 8,
      (if cellAt b (r2 : Int) (c2 : Int) = some u then 1 else 0))
    r.toNat (by omega) ?_
  · dsimp only at houter
    omega
  · intro j hj hne
    dsimp only
    refine Finset.sum_congr rfl fun c2 _ => ?_
    have heq : cellAt (setCell b r c v) (j : Int) (c2 : Int) =
        cellAt b (j : Int) (c2 : Int) := by
      refine cellAt_setCell_other b hb hrow r c _ _ v hr0 hr8 hc0 hc8 (Or.inl ?_)
      intro hq
      rw [← hrcast] at hq
      have := Int.ofNat_inj.mp hq
      exact hne this
    rw [heq]

/-- Counting after writing a list of pairwise-distinct in-range cells that
all hold `u`, with `u ≠ v`. -/
lemma placeAll_counts (v u : Nat) (huv : u ≠ v) : ∀ (L : List Coord) (b : Board),
    b.length = 8 → (∀ row ∈ b, row.length = 8) →
    (∀ q ∈ L, 0 ≤ q.1 ∧ q.1 < 8 ∧ 0 ≤ q.2 ∧ q.2 < 8) →
    L.Pairwise (· ≠ ·) → (∀ q ∈ L, cellAt b q.1 q.2 = some u) →
    countCell (placeAll b L v) v = countCell b v + L.length ∧
    countCell (placeAll b L v) u + L.length = countCell b u ∧
    (∀ w, w ≠ u → w ≠ v → countCell (placeAll b L v) w = countCell b w) := by
  intro L
  induction L with
  | nil =>
      intro b _ _ _ _ _
      refine ⟨?_, ?_, fun w _ _ => ?_⟩ <;> simp [placeAll]
  | cons q L ih =>
      intro b hb hrow hbounds hpw hcells
      obtain ⟨hq0, hq8, hqc0, hqc8⟩ := hbounds q (by simp)
      have hbq : cellAt b q.1 q.2 = some u := hcells q (by simp)
      have hpw2 := (List.pairwise_cons.mp hpw).2
      have hqne := (List.pairwise_cons.mp hpw).1
      have hdims := setCell_dims b hb hrow q.1 q.2 v hq0 hq8
      have hstep : placeAll b (q :: L) v = placeAll (setCell b q.1 q.2 v) L v := rfl
      have hothers : ∀ p ∈ L, cellAt (setCell b q.1 q.2 v) p.1 p.2 = some u := by
        intro p hp
        have hne := hqne p hp
        have : cellAt (setCell b q.1 q.2 v) p.1 p.2 = cellAt b p.1 p.2 := by
          refine cellAt_setCell_other b hb hrow q.1 q.2 p.1 p.2 v hq0 hq8 hqc0 hqc8 ?_
          by_contra hq2
          push_neg at hq2
          exact hne (Prod.ext hq2.1 hq2.2).symm
        rw [this]
        exact hcells p (by simp [hp])
      have IH := ih (setCell b q.1 q.2 v) hdims.1 hdims.2
        (fun p hp => hbounds p (by simp [hp])) hpw2 hothers
      have hset_v := countCell_setCell b hb hrow q.1 q.2 v v hq0 hq8 hqc0 hqc8
      have hset_u := countCell_setCell b hb hrow q.1 q.2 v u hq0 hq8 hqc0 hqc8
      rw [hbq] at hset_v hset_u
      have hbu : (if (some u : Option Nat) = some u then 1 else 0) = 1 := by simp
      have hbv : (if (some u : Option Nat) = some v then 1 else 0) = 0 := by
        simp only [Option.some.injEq]
        rw [if_neg huv]
      rw [hbu] at hset_u
      rw [hbv] at hset_v
      have hvv : (if v = v then 1 else 0) = 1 := by simp
      have hvu : (if v = u then 1 else 0) = 0 := by
        rw [if_neg (fun hq => huv hq.symm)]
      rw [hvv] at hset_v
      rw [hvu] at hset_u
      refine ⟨?_, ?_, ?_⟩
      · rw [hstep, IH.1, List.length_cons]
        omega
      · rw [hstep, List.length_cons]
        have := IH.2.1
        omega
      · intro w hwu hwv
        have hset_w := countCell_setCell b hb hrow q.1 q.2 v w hq0 hq8 hqc0 hqc8
        rw [hbq] at hset_w
        have hb1 : (if (some u : Option Nat) = some w then 1 else 0) = 0 := by
          simp only [Option.some.injEq]
          rw [if_neg (fun hq => hwu hq.symm)]
        have hb2 : (if v = w then 1 else 0) = 0 := by
          rw [if_neg (fun hq => hwv hq.symm)]
        rw [hb1, hb2] at hset_w
        rw [hstep, IH.2.2 w hwu hwv]
        omega

/-- Two direction steps land on the same offset only for the same direction
and the same step count (checked over all 8 directions and 8 step counts). -/
lemma dirs_steps_inj : ∀ d1 ∈ dirs, ∀ d2 ∈ dirs, ∀ k1 ∈ List.range 8, ∀ k2 ∈ List.range 8,
    (((k1 : Int) + 1) * d1.1 = ((k2 : Int) + 1) * d2.1 ∧
     ((k1 : Int) + 1) * d1.2 = ((k2 : Int) + 1) * d2.2) → d1 = d2 ∧ k1 = k2 := by decide

lemma flipsDir_mem_char (b : Board) (p : Nat) (row col dr dc : Int) :
    ∀ q ∈ flipsDir b p row col dr dc,
      (∃ k ∈ List.range 8,
        q = (row + ((k : Int) + 1) * dr, col + ((k : Int) + 1) * dc)) ∧
      inB q = true ∧ cellAt b q.1 q.2 = some (other p) := by
  intro q hq
  simp only [flipsDir] at hq
  split at hq
  · have hpred := List.mem_takeWhile_imp hq
    rw [Bool.and_eq_true] at hpred
    have hmem : q ∈ ray row col dr dc := (List.takeWhile_sublist _).subset hq
    rcases List.mem_map.mp hmem with ⟨k, hk, hkq⟩
    refine ⟨⟨k, hk, hkq.symm⟩, hpred.1, ?_⟩
    have := hpred.2
    rwa [beq_iff_eq] at this
  · cases hq

lemma ray_pairwise (row col dr dc : Int) (hd : (dr, dc) ∈ dirs) :
    (ray row col dr dc).Pairwise (· ≠ ·) := by
  unfold ray
  rw [List.pairwise_map]
  refine List.Pairwise.imp_of_mem ?_ (List.nodup_range 8)
  intro k1 k2 hk1 hk2 hne hpq
  have h1 : row + ((k1 : Int) + 1) * dr = row + ((k2 : Int) + 1) * dr :=
    congrArg Prod.fst hpq
  have h2 : col + ((k1 : Int) + 1) * dc = col + ((k2 : Int) + 1) * dc :=
    congrArg Prod.snd hpq
  have hinj := dirs_steps_inj (dr, dc) hd (dr, dc) hd k1 hk1 k2 hk2
    ⟨add_left_cancel h1, add_left_cancel h2⟩
  exact hne hinj.2

lemma flipsDir_pairwise (b : Board) (p : Nat) (row col dr dc : Int)
    (hd : (dr, dc) ∈ dirs) :
    (flipsDir b p row col dr dc).Pairwise (· ≠ ·) := by
  simp only [flipsDir]
  split
  · exact List.Pairwise.sublist (List.takeWhile_sublist _) (ray_pairwise row col dr dc hd)
  · exact List.Pairwise.nil

lemma getFlippedDiscs_pairwise (b : Board) (p : Nat) (row col : Int) :
    (getFlippedDiscs b row col p).Pairwise (· ≠ ·) := by
  unfold getFlippedDiscs
  rw [List.pairwise_flatten]
  constructor
  · intro l hl
    rcases List.mem_map.mp hl with ⟨d, hd, rfl⟩
    exact flipsDir_pairwise b p row col d.1 d.2 (by rw [Prod.mk.eta]; exact hd)
  · rw [List.pairwise_map]
    have hdirs : dirs.Pairwise (· ≠ ·) := by decide
    refine List.Pairwise.imp_of_mem ?_ hdirs
    intro d1 d2 hd1 hd2 hne x hx y hy
    obtain ⟨⟨k1, hk1, hx1⟩, _, _⟩ := flipsDir_mem_char b p row col d1.1 d1.2 x hx
    obtain ⟨⟨k2, hk2, hy1⟩, _, _⟩ := flipsDir_mem_char b p row col d2.1 d2.2 y hy
    intro hxy
    rw [hx1, hy1] at hxy
    have h1 : row + ((k1 : Int) + 1) * d1.1 = row + ((k2 : Int) + 1) * d2.1 :=
      congrArg Prod.fst hxy
    have h2 : col + ((k1 : Int) + 1) * d1.2 = col + ((k2 : Int) + 1) * d2.2 :=
      congrArg Prod.snd hxy
    have hinj := dirs_steps_inj d1 hd1 d2 hd2 k1 hk1 k2 hk2
      ⟨add_left_cancel h1, add_left_cancel h2⟩
    exact hne hinj.1

lemma getFlippedDiscs_cells (b : Board) (p : Nat) (row col : Int) :
    ∀ q ∈ getFlippedDiscs b row col p,
      (0 ≤ q.1 ∧ q.1 < 8 ∧ 0 ≤ q.2 ∧ q.2 < 8) ∧
      cellAt b q.1 q.2 = some (other p) := by
  intro q hq
  unfold getFlippedDiscs at hq
  rcases List.mem_flatten.mp hq with ⟨l, hl, hql⟩
  rcases List.mem_map.mp hl with ⟨d, hd, rfl⟩
  obtain ⟨_, hinB, hcell⟩ := flipsDir_mem_char b p row col d.1 d.2 q hql
  refine ⟨?_, hcell⟩
  have hB := hinB
  simp [inB] at hB
  omega

lemma isValidMove_empty (b : Board) (row col : Int) (p : Nat)
    (h : isValidMove b row col p = true) : cellAt b row col = some EMPTY := by
  unfold isValidMove at h
  by_contra hne
  rw [if_pos hne] at h
  cases h

lemma other_ne_zero (p : Nat) : other p ≠ 0 := by
  unfold other
  split <;> simp [BLACK, WHITE]

lemma other_ne_self (p : Nat) (hp : p = BLACK ∨ p = WHITE) : other p ≠ p := by
  rcases hp with rfl | rfl <;> decide

/-- The board written by a successful `makeMove`, and the guards that held. -/
lemma makeMove_board (s : GameState) (row col : Int) (s2 : GameState)
    (h : makeMove s row col = some s2) :
    s2.board = placeAll (setCell s.board row col s.currentPlayer)
      (getFlippedDiscs s.board row col s.currentPlayer) s.currentPlayer ∧
    isValidMove s.board row col s.currentPlayer = true := by
  simp only [makeMove] at h
  split at h
  · simp at h
  · split at h
    · simp at h
    · rename_i hv
      rw [not_not] at hv
      split at h
      · injection h with h
        subst h
        exact ⟨rfl, hv⟩
      · split at h
        · injection h with h
          subst h
          exact ⟨rfl, hv⟩
        · injection h with h
          subst h
          exact ⟨rfl, hv⟩

lemma placeAll_wf (v : Nat) (hv : v = 0 ∨ v = 1 ∨ v = 2) :
    ∀ (L : List Coord) (b : Board), wfBoard b →
      (∀ q ∈ L, 0 ≤ q.1 ∧ q.1 < 8 ∧ 0 ≤ q.2 ∧ q.2 < 8) →
      wfBoard (placeAll b L v) := by
  intro L
  induction L with
  | nil =>
      intro b h _
      exact h
  | cons q L ih =>
      intro b hwf hbnds
      obtain ⟨hq0, hq8, hqc0, hqc8⟩ := hbnds q (by simp)
      exact ih (setCell b q.1 q.2 v) (setCell_wf b hwf q.1 q.2 v hq0 hq8 hv)
        (fun q2 hq2 => hbnds q2 (by simp [hq2]))

/-- In any well-formed board, the three counts fill all 64 cells. -/
lemma countCell_total (b : Board) (hwf : wfBoard b) :
    countCell b BLACK + countCell b WHITE + countCell b EMPTY = 64 := by
  obtain ⟨hb, hrow, hval⟩ := hwf
  rw [countCell_finset, countCell_finset, countCell_finset]
  rw [← Finset.sum_add_distrib, ← Finset.sum_add_distrib]
  have hcell : ∀ r ∈ Finset.range 8,
      ((∑ c in Finset.range 8, (if cellAt b (r : Int) (c : Int) = some BLACK then 1 else 0)) +
       (∑ c in Finset.range 8, (if cellAt b (r : Int) (c : Int) = some WHITE then 1 else 0)) +
       (∑ c in Finset.range 8, (if cellAt b (r : Int) (c : Int) = some EMPTY then 1 else 0)))
      = 8 := by
    intro r hr
    rw [← Finset.sum_add_distrib, ← Finset.sum_add_distrib]
    have hone : ∀ c ∈ Finset.range 8,
        ((if cellAt b (r : Int) (c : Int) = some BLACK then 1 else 0) +
         (if cellAt b (r : Int) (c : Int) = some WHITE then 1 else 0) +
         (if cellAt b (r : Int) (c : Int) = some EMPTY then 1 else 0)) = 1 := by
      intro c hc
      rw [Finset.mem_range] at hr hc
      obtain ⟨v, hv⟩ := cellAt_isSome b hb hrow (r : Int) (c : Int)
        (by omega) (by omega) (by omega) (by omega)
      have hval3 := cellAt_some_val b ⟨hb, hrow, hval⟩ (r : Int) (c : Int) v hv
      rw [hv]
      rcases hval3 with rfl | rfl | rfl <;> simp [BLACK, WHITE, EMPTY]
    rw [Finset.sum_congr rfl hone]
    simp
  rw [Finset.sum_congr rfl hcell]
  simp

/-- C6: a successful move raises the mover's disc count by one plus the
flip-set size computed on the pre-move board, lowers the opponent's count by
the flip-set size, and keeps the three counts summing to 64. -/
theorem makeMove_disc_counts (s : GameState) (row col : Int) (s2 : GameState)
    (hwf : wfBoard s.board) (hp : s.currentPlayer = BLACK ∨ s.currentPlayer = WHITE)
    (h : makeMove s row col = some s2) :
    countCell s2.board s.currentPlayer =
      countCell s.board s.currentPlayer + 1 +
        (getFlippedDiscs s.board row col s.currentPlayer).length ∧
    countCell s.board (other s.currentPlayer) =
      countCell s2.board (other s.currentPlayer) +
        (getFlippedDiscs s.board row col s.currentPlayer).length ∧
    countCell s2.board BLACK + countCell s2.board WHITE + countCell s2.board EMPTY = 64 := by
  obtain ⟨hboard, hvalid⟩ := makeMove_board s row col s2 h
  obtain ⟨hb, hrow, hval⟩ := hwf
  have hempty := isValidMove_empty s.board row col s.currentPlayer hvalid
  obtain ⟨hr0, hr8, hc0, hc8⟩ :=
    cellAt_some_bounds s.board hb hrow row col EMPTY hempty
  set p := s.currentPlayer with hpdef
  set flips := getFlippedDiscs s.board row col p with hflips
  set b1 := setCell s.board row col p with hb1
  -- facts about the flip set on the original board
  have hcells := getFlippedDiscs_cells s.board p row col
  have hpw := getFlippedDiscs_pairwise s.board p row col
  -- the placed cell is not in the flip set
  have hnotin : ∀ q ∈ flips, q ≠ (row, col) := by
    intro q hq hqe
    have := (hcells q hq).2
    rw [hqe] at this
    simp only at this
    rw [hempty] at this
    injection this with this
    exact other_ne_zero p this.symm
  -- dimensions of b1
  have hdims1 := setCell_dims s.board hb hrow row col p hr0 hr8
  -- flip cells keep their value in b1
  have hcells1 : ∀ q ∈ flips, cellAt b1 q.1 q.2 = some (other p) := by
    intro q hq
    have hne := hnotin q hq
    have heq : cellAt b1 q.1 q.2 = cellAt s.board q.1 q.2 := by
      refine cellAt_setCell_other s.board hb hrow row col q.1 q.2 p hr0 hr8 hc0 hc8 ?_
      by_contra hq2
      push_neg at hq2
      exact hne (Prod.ext hq2.1 hq2.2)
    rw [heq]
    exact (hcells q hq).2
  have hbounds : ∀ q ∈ flips, 0 ≤ q.1 ∧ q.1 < 8 ∧ 0 ≤ q.2 ∧ q.2 < 8 :=
    fun q hq => (hcells q hq).1
  have hone : other p ≠ p := other_ne_self p hp
  -- counts after placing the mover's disc
  have hplace_p := countCell_setCell s.board hb hrow row col p p hr0 hr8 hc0 hc8
  have hplace_o := countCell_setCell s.board hb hrow row col p (other p) hr0 hr8 hc0 hc8
  have hplace_e := countCell_setCell s.board hb hrow row col p EMPTY hr0 hr8 hc0 hc8
  rw [hempty] at hplace_p hplace_o hplace_e
  have hpne : p ≠ EMPTY := by
    rcases hp with hq | hq <;> rw [hq] <;> decide
  have hemp_p : (if (some EMPTY : Option Nat) = some p then 1 else 0) = 0 := by
    simp only [Option.some.injEq]
    rw [if_neg (fun hq => hpne hq.symm)]
  have hemp_o : (if (some EMPTY : Option Nat) = some (other p) then 1 else 0) = 0 := by
    simp only [Option.some.injEq]
    rw [if_neg (fun hq => other_ne_zero p hq.symm)]
  have hemp_e : (if (some EMPTY : Option Nat) = some EMPTY then 1 else 0) = 1 := by simp
  rw [hemp_p, if_pos rfl] at hplace_p
  rw [hemp_o, if_neg (fun hq : p = other p => hone hq.symm)] at hplace_o
  rw [hemp_e, if_neg hpne] at hplace_e
  rw [← hb1] at hplace_p hplace_o hplace_e
  -- counts after flipping
  have hflip := placeAll_counts p (other p) hone flips b1 hdims1.1 hdims1.2
    hbounds hpw hcells1
  have hs2 : s2.board = placeAll b1 flips p := hboard
  refine ⟨?_, ?_, ?_⟩
  · rw [hs2, hflip.1]
    omega
  · rw [hs2]
    have := hflip.2.1
    omega
  · have hv : p = 0 ∨ p = 1 ∨ p = 2 := by
      rcases hp with hq | hq <;> rw [hq] <;> simp [BLACK, WHITE]
    have hwf1 : wfBoard b1 := setCell_wf s.board ⟨hb, hrow, hval⟩ row col p hr0 hr8 hv
    have hwf2 : wfBoard (placeAll b1 flips p) := placeAll_wf p hv flips b1 hwf1 hbounds
    rw [hs2]
    exact countCell_total _ hwf2

/-- Witness for `makeMove_disc_counts`: black opens at (2,3). -/
theorem makeMove_disc_counts_witness :
    wfBoard initialState.board ∧
    (initialState.currentPlayer = BLACK ∨ initialState.currentPlayer = WHITE) ∧
    makeMove initialState 2 3 =
      some ((makeMove initialState 2 3).getD initialState) ∧
    (countCell ((makeMove initialState 2 3).getD initialState).board
        initialState.currentPlayer =
      countCell initialState.board initialState.currentPlayer + 1 +
        (getFlippedDiscs initialState.board 2 3 initialState.currentPlayer).length ∧
    countCell initialState.board (other initialState.currentPlayer) =
      countCell ((makeMove initialState 2 3).getD initialState).board
          (other initialState.currentPlayer) +
        (getFlippedDiscs initialState.board 2 3 initialState.currentPlayer).length ∧
    countCell ((makeMove initialState 2 3).getD initialState).board BLACK +
      countCell ((makeMove initialState 2 3).getD initialState).board WHITE +
      countCell ((makeMove initialState 2 3).getD initialState).board EMPTY = 64) :=
  ⟨⟨by decide, by decide, by decide⟩, Or.inl rfl, by decide,
   makeMove_disc_counts initialState 2 3 _ ⟨by decide, by decide, by decide⟩
     (Or.inl rfl) (by decide)⟩

/-! ### Read-safety of the directional walks (claim C10)

The monadic variants below thread every single board read through `cellAt`,
failing with `none` the moment a read would fall outside the board.  They
perform exactly the reads the JS code performs: the walk tests bounds before
each read (`&&` short-circuits), the stop cell is read only after its bounds
test, and the first cell of `isValidMove` is read unguarded. -/

/-- The walk along one ray, reading each cell only after its bounds check,
collecting the run of cells equal to `v`. -/
def lineM (b : Board) (v : Nat) : List Coord → Option (List Coord)
  | [] => some []
  | q :: qs =>
    if inB q then
      match cellAt b q.1 q.2 with
      | none => none
      | some x => if x = v then (lineM b v qs).map (q :: ·) else some []
    else some []

/-- One direction of `isValidMove`, all reads threaded. -/
def checkDirM (b : Board) (p : Nat) (row col dr dc : Int) : Option Bool :=
  (lineM b (other p) (ray row col dr dc)).bind fun run =>
    if 0 < run.length then
      if inB (stopPt row col dr dc run.length) then
        match cellAt b (stopPt row col dr dc run.length).1
            (stopPt row col dr dc run.length).2 with
        | none => none
        | some x => some (decide (x = p))
      else some false
    else some false

/-- The direction loop of `isValidMove`, stopping at the first success. -/
def anyDirM (b : Board) (p : Nat) (row col : Int) : List Coord → Option Bool
  | [] => some false
  | d :: ds =>
    (checkDirM b p row col d.1 d.2).bind fun ok =>
      if ok then some true else anyDirM b p row col ds

/-- `isValidMove` with every read threaded (the first read is unguarded,
exactly as in the source). -/
def isValidMoveM (b : Board) (row col : Int) (p : Nat) : Option Bool :=
  match cellAt b row col with
  | none => none
  | some v0 => if v0 ≠ EMPTY then some false else anyDirM b p row col dirs

/-- One direction of `getFlippedDiscs`, all reads threaded. -/
def flipsDirM (b : Board) (p : Nat) (row col dr dc : Int) : Option (List Coord) :=
  (lineM b (other p) (ray row col dr dc)).bind fun run =>
    if 0 < run.length then
      if inB (stopPt row col dr dc run.length) then
        match cellAt b (stopPt row col dr dc run.length).1
            (stopPt row col dr dc run.length).2 with
        | none => none
        | some x => some (if x = p then run else [])
      else some []
    else some []

/-- The direction loop of `getFlippedDiscs`, accumulating in order. -/
def flipsAllM (b : Board) (p : Nat) (row col : Int) : List Coord → Option (List Coord)
  | [] => some []
  | d :: ds =>
    (flipsDirM b p row col d.1 d.2).bind fun l =>
      (flipsAllM b p row col ds).map (l ++ ·)

/-- `getFlippedDiscs` with every read threaded. -/
def getFlippedDiscsM (b : Board) (row col : Int) (p : Nat) : Option (List Coord) :=
  flipsAllM b p row col dirs

lemma lineM_eq (b : Board) (hb : b.length = 8)
    (hrow : ∀ row ∈ b, row.length = 8) (v : Nat) : ∀ (l : List Coord),
    lineM b v l =
      some (l.takeWhile fun q => inB q && (cellAt b q.1 q.2 == some v)) := by
  intro l
  induction l with
  | nil => rfl
  | cons q qs ih =>
      by_cases hq : inB q = true
      · have hbnd : 0 ≤ q.1 ∧ q.1 < 8 ∧ 0 ≤ q.2 ∧ q.2 < 8 := by
          have hB := hq
          simp [inB] at hB
          omega
        obtain ⟨x, hx⟩ := cellAt_isSome b hb hrow q.1 q.2 hbnd.1 hbnd.2.1
          hbnd.2.2.1 hbnd.2.2.2
        by_cases hxv : x = v
        · simp [lineM, List.takeWhile_cons, hq, hx, hxv, ih]
        · simp [lineM, List.takeWhile_cons, hq, hx, hxv]
      · rw [Bool.not_eq_true] at hq
        simp [lineM, List.takeWhile_cons, hq]

lemma checkDirM_eq (b : Board) (hb : b.length = 8)
    (hrow : ∀ row ∈ b, row.length = 8) (p : Nat) (row col dr dc : Int) :
    checkDirM b p row col dr dc = some (checkDir b p row col dr dc) := by
  simp only [checkDirM, checkDir, runIn]
  rw [lineM_eq b hb hrow (other p), Option.some_bind]
  set run := (ray row col dr dc).takeWhile
    fun q => inB q && (cellAt b q.1 q.2 == some (other p)) with hrun
  by_cases h1 : 0 < run.length
  · rw [if_pos h1]
    by_cases h2 : inB (stopPt row col dr dc run.length) = true
    · have hbnd : 0 ≤ (stopPt row col dr dc run.length).1 ∧
          (stopPt row col dr dc run.length).1 < 8 ∧
          0 ≤ (stopPt row col dr dc run.length).2 ∧
          (stopPt row col dr dc run.length).2 < 8 := by
        have hB := h2
        simp [inB] at hB
        omega
      obtain ⟨x, hx⟩ := cellAt_isSome b hb hrow _ _ hbnd.1 hbnd.2.1
        hbnd.2.2.1 hbnd.2.2.2
      rw [if_pos h2, hx]
      have hxx : (some x == some p) = decide (x = p) := by
        by_cases hxp : x = p <;> simp [hxp]
      rw [show decide (0 < run.length) = true by simp [h1], h2, hxx]
      simp
    · rw [if_neg h2]
      rw [Bool.not_eq_true] at h2
      rw [show decide (0 < run.length) = true by simp [h1], h2]
      simp
  · rw [if_neg h1]
    rw [show decide (0 < run.length) = false by simpa using h1]
    simp

lemma anyDirM_eq (b : Board) (hb : b.length = 8)
    (hrow : ∀ row ∈ b, row.length = 8) (p : Nat) (row col : Int) :
    ∀ ds : List Coord, anyDirM b p row col ds =
      some (ds.any fun d => checkDir b p row col d.1 d.2) := by
  intro ds
  induction ds with
  | nil => rfl
  | cons d ds ih =>
      simp only [anyDirM, checkDirM_eq b hb hrow, Option.some_bind, List.any_cons]
      by_cases hd : checkDir b p row col d.1 d.2 = true
      · rw [if_pos hd, hd, Bool.true_or]
      · rw [Bool.not_eq_true] at hd
        rw [if_neg (by rw [hd]; exact Bool.false_ne_true), hd, Bool.false_or, ih]

lemma flipsDirM_eq (b : Board) (hb : b.length = 8)
    (hrow : ∀ row ∈ b, row.length = 8) (p : Nat) (row col dr dc : Int) :
    flipsDirM b p row col dr dc = some (flipsDir b p row col dr dc) := by
  simp only [flipsDirM, flipsDir, runIn]
  rw [lineM_eq b hb hrow (other p), Option.some_bind]
  set run := (ray row col dr dc).takeWhile
    fun q => inB q && (cellAt b q.1 q.2 == some (other p)) with hrun
  by_cases h1 : 0 < run.length
  · by_cases h2 : inB (stopPt row col dr dc run.length) = true
    · have hbnd : 0 ≤ (stopPt row col dr dc run.length).1 ∧
          (stopPt row col dr dc run.length).1 < 8 ∧
          0 ≤ (stopPt row col dr dc run.length).2 ∧
          (stopPt row col dr dc run.length).2 < 8 := by
        have hB := h2
        simp [inB] at hB
        omega
      obtain ⟨x, hx⟩ := cellAt_isSome b hb hrow _ _ hbnd.1 hbnd.2.1
        hbnd.2.2.1 hbnd.2.2.2
      rw [if_pos h1, if_pos h2, hx]
      rw [show decide (0 < run.length) = true by simp [h1], h2]
      by_cases hxp : x = p
      · simp [hxp]
      · simp [hxp]
    · rw [if_pos h1, if_neg h2]
      rw [Bool.not_eq_true] at h2
      rw [show decide (0 < run.length) = true by simp [h1], h2]
      simp
  · rw [if_neg h1]
    rw [show decide (0 < run.length) = false by simpa using h1]
    simp

lemma flipsAllM_eq (b : Board) (hb : b.length = 8)
    (hrow : ∀ row ∈ b, row.length = 8) (p : Nat) (row col : Int) :
    ∀ ds : List Coord, flipsAllM b p row col ds =
      some ((ds.map fun d => flipsDir b p row col d.1 d.2).flatten) := by
  intro ds
  induction ds with
  | nil => rfl
  | cons d ds ih =>
      simp only [flipsAllM, flipsDirM_eq b hb hrow, Option.some_bind, ih]
      rfl

/-- C10: with in-range arguments on a well-formed board, the fully guarded
(Option-threaded) walks never hit an out-of-bounds read: they return `some`
of exactly what the direct functions compute. -/
theorem walks_read_in_bounds (b : Board) (row col : Int) (p : Nat)
    (hwf : wfBoard b) (hr0 : 0 ≤ row) (hr8 : row < 8)
    (hc0 : 0 ≤ col) (hc8 : col < 8) :
    isValidMoveM b row col p = some (isValidMove b row col p) ∧
    getFlippedDiscsM b row col p = some (getFlippedDiscs b row col p) := by
  obtain ⟨hb, hrow, _⟩ := hwf
  constructor
  · obtain ⟨v0, hv0⟩ := cellAt_isSome b hb hrow row col hr0 hr8 hc0 hc8
    unfold isValidMoveM isValidMove
    rw [hv0]
    show (if v0 ≠ EMPTY then some false else anyDirM b p row col dirs) = _
    by_cases hev : v0 ≠ EMPTY
    · rw [if_pos hev, if_pos (by simp [hev])]
    · rw [not_not] at hev
      rw [if_neg (by simp [hev]), if_neg (by simp [hev]), anyDirM_eq b hb hrow]
  · unfold getFlippedDiscsM getFlippedDiscs
    exact flipsAllM_eq b hb hrow p row col dirs

/-- Witness for `walks_read_in_bounds`: the initial board at (2,3). -/
theorem walks_read_in_bounds_witness :
    isValidMoveM initialState.board 2 3 BLACK =
      some (isValidMove initialState.board 2 3 BLACK) ∧
    getFlippedDiscsM initialState.board 2 3 BLACK =
      some (getFlippedDiscs initialState.board 2 3 BLACK) :=
  walks_read_in_bounds initialState.board 2 3 BLACK
    ⟨by decide, by decide, by decide⟩ (by decide) (by decide) (by decide) (by decide)

/-- C7: `makeMove` fails exactly when the game is over or the move is illegal
for the current player; in the embedding a failure is `none` and carries no
mutated state (mutation is all-or-nothing by construction: the source returns
false before any write), and `makeMove` is a total function, so no failure
raises an exception. -/
theorem makeMove_none_iff (s : GameState) (row col : Int) :
    makeMove s row col = none ↔
      (s.gameOver = true ∨ isValidMove s.board row col s.currentPlayer = false) := by
  simp only [makeMove]
  split
  · rename_i hg
    simp [hg]
  · rename_i hg
    rw [Bool.not_eq_true] at hg
    split
    · rename_i hv
      rw [Bool.not_eq_true] at hv
      simp [hg, hv]
    · rename_i hv
      rw [Bool.not_eq_true, Bool.not_eq_false] at hv
      split
      · simp [hg, hv]
      · split
        · simp [hg, hv]
        · simp [hg, hv]


/-! ### Heap model for `clone()` (claim C9)

The JS board is an array of row references: mutating `this.board[r][c]`
writes through the row reference, so two objects sharing a row object would
see each other's moves.  The heap model makes this explicit: a `Heap` is the
store of allocated row arrays, and a `GameRef` holds the addresses of its
rows plus the scalar fields.  `clone()` allocates fresh rows (`map(row =>
[...row])`) at the end of the heap, and `makeMove` writes only through the
acting object's own row addresses (a well-formed object's addresses are
distinct, so writing each updated row once is the same as the source's
per-cell writes). -/

abbrev Heap := List (List Nat)

/-- An `OthelloGame` object with its `board` as an array of row addresses. -/
structure GameRef where
  rowPtrs : List Nat
  currentPlayer : Nat
  gameOver : Bool
  winner : Option Nat
  lastMove : Option Coord
  flippedDiscs : List Coord
  validMoves : List Coord
  moveHistory : List (Coord × Nat × List Coord)
deriving Repr, DecidableEq

/-- The board an object sees: its rows read from the heap. -/
def boardOf (h : Heap) (g : GameRef) : Board :=
  g.rowPtrs.map fun i => h.getD i []

/-- The object's state as the functional model sees it. -/
def toState (h : Heap) (g : GameRef) : GameState :=
  { board := boardOf h g, currentPlayer := g.currentPlayer,
    gameOver := g.gameOver, winner := g.winner, lastMove := g.lastMove,
    flippedDiscs := g.flippedDiscs, validMoves := g.validMoves,
    moveHistory := g.moveHistory }

/-- game.js `clone()`: fresh rows holding copies of the source's row contents
are allocated at the end of the heap (`this.board.map(row => [...row])`);
currentPlayer, gameOver, winner and validMoves are copied, while the fields
the source does not copy keep the values `new OthelloGame()` gives them. -/
def cloneH (h : Heap) (g : GameRef) : Heap × GameRef :=
  (h ++ boardOf h g,
   { rowPtrs := (List.range g.rowPtrs.length).map (· + h.length)
     currentPlayer := g.currentPlayer
     gameOver := g.gameOver
     winner := g.winner
     lastMove := none
     flippedDiscs := []
     validMoves := g.validMoves
     moveHistory := [] })

/-- Write the rows of `b` back through the addresses `ptrs`, in order. -/
def writeRows (h : Heap) (ptrs : List Nat) (b : Board) : Heap :=
  (ptrs.zip b).foldl (fun h2 pr => h2.set pr.1 pr.2) h

/-- `makeMove` acting on the heap: the board mutations go through the acting
object's own row addresses; every scalar field lives in the object. -/
def makeMoveH (h : Heap) (g : GameRef) (row col : Int) : Option (Heap × GameRef) :=
  match makeMove (toState h g) row col with
  | none => none
  | some s2 =>
      some (writeRows h g.rowPtrs s2.board,
            { g with currentPlayer := s2.currentPlayer, gameOver := s2.gameOver,
                     winner := s2.winner, lastMove := s2.lastMove,
                     flippedDiscs := s2.flippedDiscs, validMoves := s2.validMoves,
                     moveHistory := s2.moveHistory })

/-- A sequence of heap moves, all of which must succeed. -/
def playListH (h : Heap) (g : GameRef) : List Coord → Option (Heap × GameRef)
  | [] => some (h, g)
  | q :: qs => (makeMoveH h g q.1 q.2).bind fun hg => playListH hg.1 hg.2 qs

lemma foldl_set_frame (j : Nat) : ∀ (l : List (Nat × List Nat)) (h : Heap),
    (∀ pr ∈ l, pr.1 ≠ j) →
    (l.foldl (fun h2 pr => h2.set pr.1 pr.2) h).getD j [] = h.getD j [] := by
  intro l
  induction l with
  | nil => intro h _; rfl
  | cons pr l ih =>
      intro h hd
      rw [List.foldl_cons, ih _ (fun q hq => hd q (List.mem_cons_of_mem _ hq))]
      have hne : pr.1 ≠ j := hd pr (List.mem_cons_self _ _)
      rw [List.getD_eq_getElem?_getD, List.getD_eq_getElem?_getD,
        List.getElem?_set_ne hne]

lemma writeRows_frame (h : Heap) (ptrs : List Nat) (b : Board) (j : Nat)
    (hj : j ∉ ptrs) : (writeRows h ptrs b).getD j [] = h.getD j [] := by
  refine foldl_set_frame j (ptrs.zip b) h ?_
  intro pr hpr hc
  obtain ⟨x, y⟩ := pr
  simp only at hc
  exact hj (hc ▸ (List.of_mem_zip hpr).1)

lemma boardOf_writeRows (h : Heap) (ptrs : List Nat) (b : Board) (g : GameRef)
    (hd : ∀ i ∈ g.rowPtrs, i ∉ ptrs) :
    boardOf (writeRows h ptrs b) g = boardOf h g := by
  unfold boardOf
  exact List.map_congr_left fun i hi => writeRows_frame h ptrs b i (hd i hi)

lemma makeMoveH_step (h : Heap) (g : GameRef) (row col : Int) (h2 : Heap)
    (g2 : GameRef) (hm : makeMoveH h g row col = some (h2, g2)) :
    g2.rowPtrs = g.rowPtrs ∧
    ∀ g0 : GameRef, (∀ i ∈ g0.rowPtrs, i ∉ g.rowPtrs) →
      boardOf h2 g0 = boardOf h g0 := by
  cases hmk : makeMove (toState h g) row col with
  | none =>
      simp only [makeMoveH, hmk] at hm
      exact Option.noConfusion hm
  | some s2 =>
      simp only [makeMoveH, hmk] at hm
      injection hm with hm
      rw [Prod.mk.injEq] at hm
      obtain ⟨hmh, hmg⟩ := hm
      subst hmh
      subst hmg
      exact ⟨rfl, fun g0 hd => boardOf_writeRows h g.rowPtrs s2.board g0 hd⟩

lemma playListH_frame (g0 : GameRef) : ∀ (qs : List Coord) (h : Heap)
    (g : GameRef) (h3 : Heap) (g3 : GameRef),
    playListH h g qs = some (h3, g3) →
    (∀ i ∈ g0.rowPtrs, i ∉ g.rowPtrs) →
    boardOf h3 g0 = boardOf h g0 := by
  intro qs
  induction qs with
  | nil =>
      intro h g h3 g3 hp _
      simp only [playListH] at hp
      injection hp with hp
      rw [Prod.mk.injEq] at hp
      rw [← hp.1]
  | cons q qs ih =>
      intro h g h3 g3 hp hd
      simp only [playListH] at hp
      cases hmk : makeMoveH h g q.1 q.2 with
      | none => rw [hmk] at hp; simp at hp
      | some hg2 =>
          rw [hmk, Option.some_bind] at hp
          obtain ⟨hptr, hfr⟩ := makeMoveH_step h g q.1 q.2 hg2.1 hg2.2 (by rw [hmk])
          rw [ih hg2.1 hg2.2 h3 g3 hp (by rw [hptr]; exact hd)]
          exact hfr g0 hd

lemma map_range_getD (l : List (List Nat)) :
    (List.range l.length).map (fun k => l.getD k []) = l := by
  apply List.ext_getElem
  · simp
  · intro i h1 h2
    simp only [List.getElem_map, List.getElem_range]
    rw [List.getD_eq_getElem?_getD, List.getElem?_eq_getElem h2]
    rfl

lemma getD_append_shift (h : Heap) (B : Board) (k : Nat) :
    (h ++ B).getD (k + h.length) [] = B.getD k [] := by
  rw [List.getD_eq_getElem?_getD, List.getD_eq_getElem?_getD,
    List.getElem?_append_right (Nat.le_add_left _ _), Nat.add_sub_cancel]

lemma boardOf_fresh (h : Heap) (B : Board) (g2 : GameRef)
    (hp : g2.rowPtrs = (List.range B.length).map (· + h.length)) :
    boardOf (h ++ B) g2 = B := by
  rw [boardOf, hp, List.map_map]
  have hstep : ∀ k ∈ List.range B.length,
      ((fun i => (h ++ B).getD i []) ∘ fun k => k + h.length) k =
        (fun k => B.getD k []) k := by
    intro k _
    simp only [Function.comp_apply]
    exact getD_append_shift h B k
  rw [List.map_congr_left hstep, map_range_getD]

lemma boardOf_cloneH (h : Heap) (g : GameRef) :
    boardOf (cloneH h g).1 (cloneH h g).2 = boardOf h g := by
  refine boardOf_fresh h (boardOf h g) (cloneH h g).2 ?_
  simp [cloneH, boardOf]

lemma cloneH_ptr_ge (h : Heap) (g : GameRef) :
    ∀ j ∈ (cloneH h g).2.rowPtrs, h.length ≤ j := by
  intro j hj
  simp only [cloneH, List.mem_map, List.mem_range] at hj
  obtain ⟨k, _, hk⟩ := hj
  omega

/-- C9: `clone()` agrees with the source on board, currentPlayer, gameOver,
winner and validMoves, and its row storage is disjoint from the source's;
consequently every sequence of `makeMove` calls on the clone leaves the
source's board unchanged (its scalar fields are values of the untouched
source object), and symmetrically every sequence on the source leaves the
clone's board unchanged. -/
theorem clone_independent (h : Heap) (g : GameRef)
    (hwf : ∀ i ∈ g.rowPtrs, i < h.length) :
    boardOf (cloneH h g).1 (cloneH h g).2 = boardOf h g ∧
    (cloneH h g).2.currentPlayer = g.currentPlayer ∧
    (cloneH h g).2.gameOver = g.gameOver ∧
    (cloneH h g).2.winner = g.winner ∧
    (cloneH h g).2.validMoves = g.validMoves ∧
    (∀ i ∈ g.rowPtrs, i ∉ (cloneH h g).2.rowPtrs) ∧
    (∀ qs h3 g3, playListH (cloneH h g).1 (cloneH h g).2 qs = some (h3, g3) →
       boardOf h3 g = boardOf h g) ∧
    (∀ qs h3 g3, playListH (cloneH h g).1 g qs = some (h3, g3) →
       boardOf h3 (cloneH h g).2 = boardOf h g) := by
  have hdisj : ∀ i ∈ g.rowPtrs, i ∉ (cloneH h g).2.rowPtrs := by
    intro i hi hc
    have h1 := cloneH_ptr_ge h g i hc
    have h2 := hwf i hi
    omega
  have hdisj2 : ∀ j ∈ (cloneH h g).2.rowPtrs, j ∉ g.rowPtrs := by
    intro j hj hc
    have h1 := cloneH_ptr_ge h g j hj
    have h2 := hwf j hc
    omega
  have hclone1 : boardOf (cloneH h g).1 g = boardOf h g := by
    simp only [cloneH, boardOf]
    refine List.map_congr_left ?_
    intro i hi
    rw [List.getD_eq_getElem?_getD, List.getD_eq_getElem?_getD,
      List.getElem?_append, if_pos (hwf i hi)]
  refine ⟨boardOf_cloneH h g, rfl, rfl, rfl, rfl, hdisj, ?_, ?_⟩
  · intro qs h3 g3 hp
    rw [playListH_frame g qs (cloneH h g).1 (cloneH h g).2 h3 g3 hp hdisj]
    exact hclone1
  · intro qs h3 g3 hp
    rw [playListH_frame (cloneH h g).2 qs (cloneH h g).1 g h3 g3 hp hdisj2]
    exact boardOf_cloneH h g

/-- The initial object laid out concretely: rows at heap addresses 0-7. -/
def initHeap : Heap := initialState.board

/-- The initial game object referencing `initHeap`. -/
def initRef : GameRef :=
  { rowPtrs := [0, 1, 2, 3, 4, 5, 6, 7]
    currentPlayer := BLACK
    gameOver := false
    winner := none
    lastMove := none
    flippedDiscs := []
    validMoves := initialState.validMoves
    moveHistory := [] }

/-- Witness for `clone_independent`: cloning the initial object. -/
theorem clone_independent_witness :
    (∀ i ∈ initRef.rowPtrs, i < initHeap.length) ∧
    boardOf (cloneH initHeap initRef).1 (cloneH initHeap initRef).2 =
      boardOf initHeap initRef ∧
    (∀ i ∈ initRef.rowPtrs, i ∉ (cloneH initHeap initRef).2.rowPtrs) :=
  ⟨by decide, (clone_independent initHeap initRef (by decide)).1,
   (clone_independent initHeap initRef (by decide)).2.2.2.2.2.1⟩
